import Mathlib

/-!
# Maybenot machine codec and validator: a shallow embedding

This file embeds the data model, validation logic and version-1 binary
wire format of the `Machine` type (src/src/machine.rs) in Lean 4, and
proves the specification's claims about it.

Conventions of the embedding:

* Machine integers (`u8`, `u16`, `u64`, `usize`) become `Nat`, with
  explicit `% 2^w` at the points where the source casts or writes a
  fixed-width value.
* IEEE-754 doubles (`f64`) become the type `F64` below: `nan`, the two
  infinities, or an exact rational magnitude.  Bit-level encoding and
  decoding of doubles is implemented exactly (sign / biased exponent /
  mantissa); float addition is modelled as exact rational addition
  (the only float arithmetic the source performs is summing transition
  probabilities).
* Fallible Rust code returning `Result` becomes `Except`; a reachable
  `unwrap()` of an error value is modelled by an explicit `panic`
  outcome of the surrounding operation.
* The companion modules `state.rs`, `dist.rs`, `event.rs` and
  `constants.rs` are not part of the sources; their definitions are
  modelled from the specification and are marked `Modelled from the
  spec:` in their doc comments.
* The external `hex` crate codec is implemented concretely; the
  external zlib compressor/decompressor and SHA-256 digest are treated
  as oracle parameters.
-/

namespace Maybenot

set_option maxRecDepth 100000

/-! ## The `F64` value model -/

/-- Model of an IEEE-754 double value: `nan`, an infinity, or a finite
value represented by its exact rational magnitude (both zeroes collapse
to `fin 0`, and all NaN payloads collapse to `nan`; neither distinction
is observable through the operations the source performs). -/
inductive F64 where
  | nan : F64
  | inf : F64
  | ninf : F64
  | fin : ℚ → F64
  deriving DecidableEq, Repr

/-- IEEE `<=` comparison: any comparison involving a NaN is false. -/
def F64.ble : F64 → F64 → Bool
  | nan, _ => false
  | _, nan => false
  | ninf, _ => true
  | _, inf => true
  | inf, _ => false
  | _, ninf => false
  | fin a, fin b => a ≤ b

/-- IEEE `<` comparison: any comparison involving a NaN is false. -/
def F64.blt : F64 → F64 → Bool
  | nan, _ => false
  | _, nan => false
  | inf, _ => false
  | ninf, ninf => false
  | ninf, _ => true
  | fin _, inf => true
  | fin _, ninf => false
  | fin a, fin b => a < b

/-- Exact rational addition, phrased through `mkRat` so that it reduces
inside the kernel (`Rat.add` itself does not); provably equal to `+`. -/
def ratAdd (a b : ℚ) : ℚ := mkRat (a.num * b.den + b.num * a.den) (a.den * b.den)

/-- IEEE addition, modelled exactly on the rationals (no rounding). -/
def F64.add : F64 → F64 → F64
  | nan, _ => nan
  | _, nan => nan
  | inf, ninf => nan
  | ninf, inf => nan
  | inf, _ => inf
  | _, inf => inf
  | ninf, _ => ninf
  | _, ninf => ninf
  | fin a, fin b => fin (ratAdd a b)

/-! ## Little-endian byte strings -/

/-- The `k` little-endian bytes of `n` (truncating at `2 ^ (8 * k)`),
as written by `byteorder::LittleEndian`. -/
def bytesLE (k n : Nat) : List Nat :=
  (List.range k).map fun i => n / 256 ^ i % 256

/-- Read a little-endian byte string back into a natural number. -/
def leNat (l : List Nat) : Nat :=
  l.foldr (fun b acc => b + 256 * acc) 0

/-- The power `2 ^ (e % 2 ^ 11)`, computed from the binary digits of `e`. -/
def pow2 (e : Nat) : Nat :=
  (if e % 2 = 1 then 0x2 else 1) *
  (if e / 2 % 2 = 1 then 0x4 else 1) *
  (if e / 4 % 2 = 1 then 0x10 else 1) *
  (if e / 8 % 2 = 1 then 0x100 else 1) *
  (if e / 16 % 2 = 1 then 0x10000 else 1) *
  (if e / 32 % 2 = 1 then 0x100000000 else 1) *
  (if e / 64 % 2 = 1 then 0x10000000000000000 else 1) *
  (if e / 128 % 2 = 1 then 0x100000000000000000000000000000000 else 1) *
  (if e / 256 % 2 = 1 then
    0x10000000000000000000000000000000000000000000000000000000000000000 else 1) *
  (if e / 512 % 2 = 1 then
    0x100000000000000000000000000000000000000000000000000000000000000000000000000000000000000000000000000000000000000000000000000000000
   else 1) *
  (if e / 1024 % 2 = 1 then
    0x10000000000000000000000000000000000000000000000000000000000000000000000000000000000000000000000000000000000000000000000000000000000000000000000000000000000000000000000000000000000000000000000000000000000000000000000000000000000000000000000000000000000000000
   else 1)

/-- Floor of the base-2 logarithm for arguments below `2 ^ 2048`,
computed by an 11-step binary search (the kernel cannot unfold
`Nat.log2` on numbers of this size). -/
def log2Fast (n : Nat) : Nat :=
  [1024, 512, 256, 128, 64, 32, 16, 8, 4, 2, 1].foldl
    (fun acc b => if pow2 (acc + b) ≤ n then acc + b else acc) 0

/-! ## IEEE-754 double bit patterns

`byteorder`'s `write_f64`/`read_f64` move the 64 raw bits of a double.
`f64FromBits` interprets a 64-bit pattern exactly (sign, 11-bit biased
exponent, 52-bit mantissa); `f64ToBits` inverts it on bit patterns of
actual doubles.  `F64.isDouble` holds exactly when a value survives the
encode/decode round trip, i.e. when it denotes an actual `f64`. -/

/-- Interpret a 64-bit pattern as an IEEE-754 double, exactly. -/
def f64FromBits (b : Nat) : F64 :=
  let s : Nat := b / 2 ^ 63 % 2
  let e : Nat := b / 2 ^ 52 % 2 ^ 11
  let f : Nat := b % 2 ^ 52
  if e = 2047 then
    if f = 0 then (if s = 1 then F64.ninf else F64.inf) else F64.nan
  else
    let mag : ℚ :=
      if e = 0 then mkRat f (pow2 1074)
      else mkRat ((2 ^ 52 + f) * pow2 e) (pow2 1075)
    F64.fin (if s = 1 then -mag else mag)

/-- Recover the bit pattern of an `F64` value.  Correct on values that
denote actual doubles (`F64.isDouble`); on other values it returns an
arbitrary pattern, which `F64.isDouble` then rejects. -/
def f64ToBits : F64 → Nat
  | F64.nan => 0x7ff8000000000000
  | F64.inf => 0x7ff0000000000000
  | F64.ninf => 0xfff0000000000000
  | F64.fin q =>
    if q = 0 then 0
    else
      let s : Nat := if q.num < 0 then 2 ^ 63 else 0
      let n : Nat := q.num.natAbs * pow2 1074 / q.den
      if n < 2 ^ 52 then s + n
      else
        let ebits : Nat := log2Fast n - 51
        s + ebits * 2 ^ 52 + (n / pow2 (ebits - 1) - 2 ^ 52)

/-- The 8 little-endian bytes of a double, as written by `write_f64`. -/
def f64Bytes (x : F64) : List Nat := bytesLE 8 (f64ToBits x)

/-- Read a double from the first 8 bytes of a buffer (`read_f64`). -/
def readF64 (l : List Nat) : F64 := f64FromBits (leNat (l.take 8))

/-- A model value denotes an actual IEEE-754 double exactly when it
survives the byte-level encode/decode round trip (`write_f64` followed
by `read_f64`). -/
def F64.isDouble (x : F64) : Prop := readF64 (f64Bytes x) = x

instance (x : F64) : Decidable x.isDouble := by
  unfold F64.isDouble; infer_instance

/-- Modelled from the spec: `event.rs` is not among the sources.  §2 and
§3 describe Event as a closed, totally ordered enumeration of observable
event kinds — padding sent/received, non-padding sent/received, blocking
begin/end, and an internal "limit reached" signal — whose fixed
iteration order determines the byte layout of the per-event transition
sub-vectors. -/
inductive Event where
  | nonPaddingRecv : Event
  | paddingRecv : Event
  | nonPaddingSent : Event
  | paddingSent : Event
  | blockingBegin : Event
  | blockingEnd : Event
  | limitReached : Event
  deriving DecidableEq, Fintype, Repr

/-- Modelled from the spec: the fixed iteration order of
`Event::iterator()` used by the wire format (§3: "order is part of the
wire contract"). -/
def Event.order : List Event :=
  [.nonPaddingRecv, .paddingRecv, .nonPaddingSent, .paddingSent,
   .blockingBegin, .blockingEnd, .limitReached]

/-- The position of an event in the iteration order. -/
def Event.index : Event → Nat
  | .nonPaddingRecv => 0
  | .paddingRecv => 1
  | .nonPaddingSent => 2
  | .paddingSent => 3
  | .blockingBegin => 4
  | .blockingEnd => 5
  | .limitReached => 6

/-! ## Constants

Modelled from the spec: `constants.rs` is not among the sources.  §9
calls `STATEMAX`, the format version and the fixed serialized
distribution size global format constants; the spec does not record
`STATEMAX`'s numeric value, so a concrete representative (500, small
enough to round-trip through the 2-byte state-count field) is fixed
here.  `SERIALIZEDDISTSIZE` is determined by the distribution layout of
§4.3: a 2-byte kind tag plus four 8-byte doubles. -/

def STATEMAX : Nat := 500

def VERSION : Nat := 1

def SERIALIZEDDISTSIZE : Nat := 2 + 4 * 8

/-! ## Distributions -/

/-- Modelled from the spec: `dist.rs` is not among the sources.  §3 and
§9 describe Distribution as a closed tagged variant set; the kinds named
by the repository's tests (src/src/machine.rs) are `None`, `Uniform`,
`Poisson`, `Pareto`, `Geometric`, `Weibull` and `Beta`.  The wire tag is
the listed position. -/
inductive DistType where
  | none : DistType
  | uniform : DistType
  | poisson : DistType
  | pareto : DistType
  | geometric : DistType
  | weibull : DistType
  | beta : DistType
  deriving DecidableEq, Fintype, Repr

/-- The 16-bit wire tag of a distribution kind. -/
def DistType.tag : DistType → Nat
  | .none => 0
  | .uniform => 1
  | .poisson => 2
  | .pareto => 3
  | .geometric => 4
  | .weibull => 5
  | .beta => 6

/-- Decode a 16-bit wire tag back into a distribution kind; unknown tags
are a parse failure. -/
def distTypeOfTag (t : Nat) : Except Unit DistType :=
  match t with
  | 0 => .ok .none
  | 1 => .ok .uniform
  | 2 => .ok .poisson
  | 3 => .ok .pareto
  | 4 => .ok .geometric
  | 5 => .ok .weibull
  | 6 => .ok .beta
  | _ => .error ()

/-- Modelled from the spec: §3 — a tagged numeric sampling
specification: kind, two shape/scale parameters, lower bound `start`,
upper bound `max`. -/
structure Dist where
  dist : DistType
  param1 : F64
  param2 : F64
  start : F64
  max : F64
  deriving DecidableEq, Repr

/-- Validation errors.  The source reports errors as formatted strings
(`simple_error::bail!`); the model captures which check failed and the
offending value, which is the content the spec ascribes to them (§7:
"which field, which state index, which Event, the offending value"). -/
inductive VError where
  | maxPaddingFrac : F64 → VError
  | maxBlockingFrac : F64 → VError
  | noStates : VError
  | tooManyStates : Nat → VError
  | nextVectorLen : Nat → Nat → VError
  | probOutOfRange : F64 → VError
  | probTotal : F64 → VError
  | distParams : DistType → VError
  deriving DecidableEq, Repr

/-- Modelled from the spec: §4.1 — `Dist::validate` fails when the
parameters fall outside the domain required by the kind (`None` is
always valid; positivity for the continuous kinds' rate/shape/scale
parameters, a [0, 1] probability for `Geometric`).  The repository's
tests (src/src/machine.rs) successfully validate distributions whose
finite `max` is below `start`, so no `start`/`max` relation is
checked. -/
def Dist.validate (d : Dist) : Except VError Unit :=
  match d.dist with
  | .none => .ok ()
  | .uniform =>
    if d.param1.ble d.param2 then .ok () else .error (.distParams .uniform)
  | .poisson =>
    if (F64.fin 0).blt d.param1 then .ok () else .error (.distParams .poisson)
  | .pareto =>
    if (F64.fin 0).blt d.param1 && (F64.fin 0).blt d.param2 then .ok ()
    else .error (.distParams .pareto)
  | .geometric =>
    if (F64.fin 0).blt d.param1 && d.param1.ble (F64.fin 1) then .ok ()
    else .error (.distParams .geometric)
  | .weibull =>
    if (F64.fin 0).blt d.param1 && (F64.fin 0).blt d.param2 then .ok ()
    else .error (.distParams .weibull)
  | .beta =>
    if (F64.fin 0).blt d.param1 && (F64.fin 0).blt d.param2 then .ok ()
    else .error (.distParams .beta)

/-! ## States and machines -/

/-- Modelled from the spec: `state.rs` is not among the sources.  §3 —
one automaton state: action/limit/timeout distributions, their flags, a
`replace` flag, and a transition table mapping each relevant `Event` to
a probability vector.  The table is modelled as a function to `Option`,
mirroring a `HashMap<Event, Vec<f64>>` in which an `Event` may be
absent. -/
structure State where
  action : Dist
  action_is_block : Bool
  limit : Dist
  limit_includes_nonpadding : Bool
  timeout : Dist
  replace : Bool
  next_state : Event → Option (List F64)

instance : DecidableEq State := fun a b =>
  decidable_of_iff
    (a.action = b.action ∧ a.action_is_block = b.action_is_block ∧
      a.limit = b.limit ∧ a.limit_includes_nonpadding = b.limit_includes_nonpadding ∧
      a.timeout = b.timeout ∧ a.replace = b.replace ∧
      a.next_state = b.next_state)
    (by
      constructor
      · rintro ⟨h1, h2, h3, h4, h5, h6, h7⟩
        cases a; cases b; simp_all
      · rintro rfl; exact ⟨rfl, rfl, rfl, rfl, rfl, rfl, rfl⟩)

/-- The machine container, with the field layout of `Machine` in
src/src/machine.rs (the `u64` budgets become `Nat`). -/
structure Machine where
  allowed_padding_bytes : Nat
  max_padding_frac : F64
  allowed_blocked_microsec : Nat
  max_blocking_frac : F64
  states : List State
  include_small_packets : Bool

instance : DecidableEq Machine := fun a b =>
  decidable_of_iff
    (a.allowed_padding_bytes = b.allowed_padding_bytes ∧
      a.max_padding_frac = b.max_padding_frac ∧
      a.allowed_blocked_microsec = b.allowed_blocked_microsec ∧
      a.max_blocking_frac = b.max_blocking_frac ∧
      a.states = b.states ∧
      a.include_small_packets = b.include_small_packets)
    (by
      constructor
      · rintro ⟨h1, h2, h3, h4, h5, h6⟩
        cases a; cases b; simp_all
      · rintro rfl; exact ⟨rfl, rfl, rfl, rfl, rfl, rfl⟩)

instance {ε α : Type _} [DecidableEq ε] [DecidableEq α] :
    DecidableEq (Except ε α) := fun
  | .error e, .error f =>
    match decEq e f with
    | isTrue h => isTrue (by rw [h])
    | isFalse h => isFalse (fun hh => h (by injection hh))
  | .error _, .ok _ => isFalse (fun h => Except.noConfusion h)
  | .ok _, .error _ => isFalse (fun h => Except.noConfusion h)
  | .ok a, .ok b =>
    match decEq a b with
    | isTrue h => isTrue (by rw [h])
    | isFalse h => isFalse (fun hh => h (by injection hh))

/-! ## Validation (src/src/machine.rs, `Machine::validate`) -/

/-- The entry check of machine.rs:118: `(0.0..=1.0).contains(p)`,
which is `0.0 <= p && p <= 1.0` for an inclusive range. -/
def probOkB (p : F64) : Bool := (F64.fin 0).ble p && p.ble (F64.fin 1)

/-- The inner entry loop of `Machine::validate` (machine.rs:116-122):
for each probability, bail unless `(0.0..=1.0).contains(p)`, then add it
to the running total.  Returns the final `p_total`. -/
def checkProbs : List F64 → F64 → Except VError F64
  | [], t => .ok t
  | p :: rest, t =>
    if !probOkB p then .error (.probOutOfRange p)
    else checkProbs rest (t.add p)

/-- The per-vector checks of `Machine::validate` (machine.rs:107-135):
the length check against `states.len() + 2`, the entry loop, and the
total check `p_total <= 0.0 || p_total >= 1.0005`. -/
def checkVec (nStates : Nat) (v : List F64) : Except VError Unit :=
  if v.length ≠ nStates + 2 then .error (.nextVectorLen (nStates + 2) v.length)
  else
    match checkProbs v (F64.fin 0) with
    | .error e => .error e
    | .ok t =>
      if t.ble (F64.fin 0) || (F64.fin (mkRat 10005 10000)).ble t then
        .error (.probTotal t)
      else .ok ()

/-- The `for next in &state.next_state` loop (machine.rs:107-136),
iterating over the events present in the transition table.  The
`HashMap` iteration order is unspecified in Rust; the model fixes the
`Event::iterator()` order, which does not affect acceptance. -/
def checkNextStates (nStates : Nat) (f : Event → Option (List F64)) :
    List Event → Except VError Unit
  | [] => .ok ()
  | e :: rest =>
    match f e with
    | Option.none => checkNextStates nStates f rest
    | some v =>
      match checkVec nStates v with
      | .error err => .error err
      | .ok () => checkNextStates nStates f rest

/-- The per-state body of `Machine::validate` (machine.rs:105-142):
transition vectors first, then the three distributions. -/
def checkState (nStates : Nat) (st : State) : Except VError Unit :=
  match checkNextStates nStates st.next_state Event.order with
  | .error e => .error e
  | .ok () =>
    match st.action.validate with
    | .error e => .error e
    | .ok () =>
      match st.limit.validate with
      | .error e => .error e
      | .ok () => st.timeout.validate

/-- The `for state in &self.states` loop (machine.rs:105-142). -/
def checkStates (nStates : Nat) : List State → Except VError Unit
  | [] => .ok ()
  | st :: rest =>
    match checkState nStates st with
    | .error e => .error e
    | .ok () => checkStates nStates rest

/-- Mirrors `Machine::validate` (machine.rs:77-145): fraction bounds, state
count bounds, then the per-state checks, short-circuiting on the first
failure. -/
def Machine.validate (m : Machine) : Except VError Unit :=
  if m.max_padding_frac.blt (F64.fin 0) || (F64.fin 1).blt m.max_padding_frac then
    .error (.maxPaddingFrac m.max_padding_frac)
  else if m.max_blocking_frac.blt (F64.fin 0) || (F64.fin 1).blt m.max_blocking_frac then
    .error (.maxBlockingFrac m.max_blocking_frac)
  else if m.states.isEmpty then .error .noStates
  else if STATEMAX < m.states.length then .error (.tooManyStates m.states.length)
  else checkStates m.states.length m.states

/-! ## Serialization (src/src/machine.rs, `Machine::serialize`) -/

/-- The byte written for a boolean flag (machine.rs:161-165). -/
def boolByte (b : Bool) : Nat := if b then 1 else 0

/-- Modelled from the spec: the serialized form of one distribution
(§4.3: a fixed-size block of `SERIALIZEDDISTSIZE` bytes; a 2-byte kind
tag followed by the four doubles in field order). -/
def Dist.serialize (d : Dist) : List Nat :=
  bytesLE 2 d.dist.tag ++ f64Bytes d.param1 ++ f64Bytes d.param2 ++
    f64Bytes d.start ++ f64Bytes d.max

/-- Modelled from the spec: the dense wire form of one per-event
transition vector (§4.3): `num_states + 2` doubles, present even when
the event is absent from the table, in which case the vector is
all-zero. -/
def serializeVec (nStates : Nat) (ov : Option (List F64)) : List Nat :=
  match ov with
  | Option.none => ((List.range (nStates + 2)).map fun _ => f64Bytes (F64.fin 0)).join
  | some v => ((List.range (nStates + 2)).map fun i => f64Bytes (v.getD i (F64.fin 0))).join

/-- Modelled from the spec: `State::serialize` (state.rs is not among
the sources; §4.3): three distribution blocks, four flag bytes
(`action_is_block`, `limit_includes_nonpadding`, `replace`, one
reserved zero byte), then one dense vector per event kind in iteration
order. -/
def State.serialize (nStates : Nat) (s : State) : List Nat :=
  s.action.serialize ++ s.limit.serialize ++ s.timeout.serialize ++
  [boolByte s.action_is_block, boolByte s.limit_includes_nonpadding,
    boolByte s.replace, 0] ++
  (Event.order.map fun e => serializeVec nStates (s.next_state e)).join

/-- Mirrors `Machine::serialize` (machine.rs:148-181) up to the external zlib
compression and hex encoding: the version tag, the four 8-byte scalars,
the flag byte, the state count written as a `u16` (`num_states as u16`,
machine.rs:168 — `bytesLE 2` truncates exactly like the cast), and the
per-state blocks. -/
def Machine.serializeBytes (m : Machine) : List Nat :=
  bytesLE 2 VERSION ++
  bytesLE 8 m.allowed_padding_bytes ++
  f64Bytes m.max_padding_frac ++
  bytesLE 8 m.allowed_blocked_microsec ++
  f64Bytes m.max_blocking_frac ++
  [boolByte m.include_small_packets] ++
  bytesLE 2 m.states.length ++
  (m.states.map (State.serialize m.states.length)).join

/-! ## Parsing (src/src/machine.rs, `FromStr` and `parse_v1_machine`) -/

/-- Decode errors, mirroring the `bail!` sites of `from_str` and
`parse_v1_machine` plus the two error kinds of the external decoders. -/
inductive DError where
  | hexError : DError
  | zlibError : DError
  | shortVersion : DError
  | unsupportedVersion : Nat → DError
  | notEnoughData : DError
  | stateLenMismatch : Nat → Nat → Nat → DError
  | validation : VError → DError
  deriving DecidableEq, Repr

/-- The outcome of decoding: a machine, a returned error, or a panic
(an `unwrap()` of an error value). -/
inductive MResult where
  | ok : Machine → MResult
  | err : DError → MResult
  | panic : MResult

instance : DecidableEq MResult := fun a b =>
  match a, b with
  | .ok x, .ok y =>
    match decEq x y with
    | isTrue h => isTrue (by rw [h])
    | isFalse h => isFalse (fun hh => h (by injection hh))
  | .err x, .err y =>
    match decEq x y with
    | isTrue h => isTrue (by rw [h])
    | isFalse h => isFalse (fun hh => h (by injection hh))
  | .panic, .panic => isTrue rfl
  | .ok _, .err _ => isFalse (fun h => MResult.noConfusion h)
  | .ok _, .panic => isFalse (fun h => MResult.noConfusion h)
  | .err _, .ok _ => isFalse (fun h => MResult.noConfusion h)
  | .err _, .panic => isFalse (fun h => MResult.noConfusion h)
  | .panic, .ok _ => isFalse (fun h => MResult.noConfusion h)
  | .panic, .err _ => isFalse (fun h => MResult.noConfusion h)

/-- The fixed size of one serialized state block for a given state
count (machine.rs:210-211). -/
def perStateSize (numStates : Nat) : Nat :=
  3 * SERIALIZEDDISTSIZE + 4 + (numStates + 2) * 8 * Event.order.length

/-- Modelled from the spec: decoding one distribution block (dist.rs is
not among the sources): the 2-byte tag (unknown tags are a parse
failure) and the four doubles. -/
def parseDist (l : List Nat) : Except Unit Dist :=
  match distTypeOfTag (leNat (l.take 2)) with
  | .error () => .error ()
  | .ok dt =>
    .ok ⟨dt, readF64 (l.drop 2), readF64 (l.drop 10), readF64 (l.drop 18),
      readF64 (l.drop 26)⟩

/-- Read one dense probability vector of `nStates + 2` doubles. -/
def parseVec (nStates : Nat) (l : List Nat) : List F64 :=
  (List.range (nStates + 2)).map fun i => readF64 (l.drop (8 * i))

/-- Modelled from the spec: the transition table recovered from the
dense wire form (§4.3): an all-zero vector is treated as "absent". -/
def parseNextState (nStates : Nat) (tbytes : List Nat) : Event → Option (List F64) :=
  fun e =>
    let v := parseVec nStates (tbytes.drop (e.index * ((nStates + 2) * 8)))
    if v.all (fun x => x == F64.fin 0) then none else some v

/-- Modelled from the spec: `parse_state` (state.rs is not among the
sources; §4.3): the three distribution blocks, the four flag bytes, and
the transition region, at their fixed offsets inside one state block. -/
def parseState (block : List Nat) (nStates : Nat) : Except Unit State :=
  match parseDist (block.take SERIALIZEDDISTSIZE) with
  | .error () => .error ()
  | .ok action =>
    match parseDist ((block.drop SERIALIZEDDISTSIZE).take SERIALIZEDDISTSIZE) with
    | .error () => .error ()
    | .ok limit =>
      match parseDist ((block.drop (2 * SERIALIZEDDISTSIZE)).take SERIALIZEDDISTSIZE) with
      | .error () => .error ()
      | .ok timeout =>
        .ok ⟨action, block.getD (3 * SERIALIZEDDISTSIZE) 0 == 1,
          limit, block.getD (3 * SERIALIZEDDISTSIZE + 1) 0 == 1,
          timeout, block.getD (3 * SERIALIZEDDISTSIZE + 2) 0 == 1,
          parseNextState nStates (block.drop (3 * SERIALIZEDDISTSIZE + 4))⟩

/-- The state loop of `parse_v1_machine` (machine.rs:221-226): slice
one `expected_state_len` block per state. -/
def parseStates (perLen nStates : Nat) : Nat → List Nat → Except Unit (List State)
  | 0, _ => .ok []
  | k + 1, bytes =>
    match parseState (bytes.take perLen) nStates with
    | .error () => .error ()
    | .ok s =>
      match parseStates perLen nStates k (bytes.drop perLen) with
      | .error () => .error ()
      | .ok rest => .ok (s :: rest)

/-- Mirrors `parse_v1_machine` (machine.rs:184-238) up to but excluding its
final validation step: header length check, the fixed header fields,
the exact state-region length check, and the state loop, whose failure
is an `unwrap()` panic in the source (machine.rs:223). -/
def parse_v1_pre (buf : List Nat) : MResult :=
  if buf.length < 4 * 8 + 1 + 2 then .err .notEnoughData
  else if (buf.drop 35).length ≠
      perStateSize (leNat ((buf.drop 33).take 2)) *
        leNat ((buf.drop 33).take 2) then
    .err (.stateLenMismatch
      (perStateSize (leNat ((buf.drop 33).take 2)) *
        leNat ((buf.drop 33).take 2))
      (leNat ((buf.drop 33).take 2)) (buf.drop 35).length)
  else
    match parseStates (perStateSize (leNat ((buf.drop 33).take 2)))
        (leNat ((buf.drop 33).take 2)) (leNat ((buf.drop 33).take 2))
        (buf.drop 35) with
    | .error () => .panic
    | .ok states =>
      .ok ⟨leNat (buf.take 8), readF64 (buf.drop 8),
        leNat ((buf.drop 16).take 8), readF64 (buf.drop 24),
        states, buf.getD 32 0 == 1⟩

/-- Mirrors `parse_v1_machine` (machine.rs:184-238): the pre-validation parse
followed by `m.validate()?; Ok(m)` (machine.rs:236-237). -/
def parse_v1_machine (buf : List Nat) : MResult :=
  match parse_v1_pre buf with
  | .ok m =>
    match m.validate with
    | .error e => .err (.validation e)
    | .ok () => .ok m
  | r => r

/-- The version dispatch of `from_str` (machine.rs:51-60): too-short
buffers cannot hold the version tag; only version 1 is accepted. -/
def parseMachineBuf (buf : List Nat) : MResult :=
  if buf.length < 2 then .err .shortVersion
  else
    match leNat (buf.take 2) with
    | 1 => parse_v1_machine (buf.drop 2)
    | v => .err (.unsupportedVersion v)

/-! ## Hex codec and the full string pipeline -/

/-- Modelled from the spec: the external `hex` crate's `decode` — the
value of one hex digit, accepting both cases. -/
def hexDigitVal (c : Char) : Except Unit Nat :=
  let n := c.toNat
  if 48 ≤ n && n ≤ 57 then .ok (n - 48)
  else if 97 ≤ n && n ≤ 102 then .ok (n - 87)
  else if 65 ≤ n && n ≤ 70 then .ok (n - 55)
  else .error ()

/-- Modelled from the spec: `hex::decode` — pairs of hex digits to
bytes; odd length or a non-hex character is an error. -/
def hexDecode : List Char → Except Unit (List Nat)
  | [] => .ok []
  | [_] => .error ()
  | a :: b :: rest =>
    match hexDigitVal a, hexDigitVal b with
    | .ok x, .ok y =>
      match hexDecode rest with
      | .ok l => .ok ((16 * x + y) :: l)
      | .error () => .error ()
    | _, _ => .error ()

/-- Modelled from the spec: `hex::encode` — one lowercase hex digit. -/
def hexDigitChar (n : Nat) : Char :=
  if n < 10 then Char.ofNat (48 + n) else Char.ofNat (87 + n)

/-- Modelled from the spec: `hex::encode` — two lowercase digits per
byte. -/
def hexEncode (bytes : List Nat) : List Char :=
  (bytes.map fun b => [hexDigitChar (b / 16), hexDigitChar (b % 16)]).join

/-- The outcome of the external zlib decoder on one input:
`Decoder::new` fails (bad zlib header), `read_to_end` fails (corrupt or
truncated deflate stream), or inflation succeeds with a buffer. -/
inductive InflateResult where
  | headerErr : InflateResult
  | readErr : InflateResult
  | ok : List Nat → InflateResult

/-- Mirrors `Machine::from_str` (machine.rs:43-61), parametrized by the
external zlib decoder `inflate`.  `hex::decode` failure and
`Decoder::new` failure are returned as errors (machine.rs:45-47); a
`read_to_end` failure hits the `unwrap()` at machine.rs:49 and is a
panic. -/
def Machine.from_str (inflate : List Nat → InflateResult) (s : List Char) : MResult :=
  match hexDecode s with
  | .error () => .err .hexError
  | .ok compressed =>
    match inflate compressed with
    | .headerErr => .err .zlibError
    | .readErr => .panic
    | .ok buf => parseMachineBuf buf

/-- Mirrors `Machine::serialize` (machine.rs:148-181), parametrized by the
external zlib compressor: the binary layout, compressed, hex-encoded. -/
def Machine.serialize (compress : List Nat → List Nat) (m : Machine) : List Char :=
  hexEncode (compress m.serializeBytes)

/-- Mirrors `Machine::name` (machine.rs:67-73), parametrized by the external
compressor and SHA-256 digest: hash the bytes of the serialized string,
hex-encode the digest, and keep the first 32 characters. -/
def Machine.name (compress sha256 : List Nat → List Nat) (m : Machine) : List Char :=
  (hexEncode (sha256 ((m.serialize compress).map Char.toNat))).take 32

/-! ## Characterizing `Machine::validate` -/

/-- The running total `p_total` computed by the entry loop. -/
def sumF (v : List F64) : F64 := v.foldl F64.add (F64.fin 0)

/-- The rational value of a finite `F64` (0 for the non-finite ones). -/
def F64.toQ : F64 → ℚ
  | fin q => q
  | _ => 0

/-- The spec-level reading of the per-vector invariant (§4.2, item 3),
stated over exact rationals. -/
def VecSpecOk (n : Nat) (v : List F64) : Prop :=
  v.length = n + 2 ∧ (∀ p ∈ v, ∃ q, p = F64.fin q ∧ 0 ≤ q ∧ q ≤ 1) ∧
  0 < (v.map F64.toQ).sum ∧ (v.map F64.toQ).sum < 10005 / 10000

/-- The spec-level reading of the per-state invariants (§4.2, items 3
and 4). -/
def StateSpecOk (n : Nat) (st : State) : Prop :=
  (∀ e v, st.next_state e = some v → VecSpecOk n v) ∧
  st.action.validate = .ok () ∧ st.limit.validate = .ok () ∧
  st.timeout.validate = .ok ()

/-- The fraction checks of machine.rs:79-90, in the source's own IEEE
comparison semantics (`x < 0.0 || x > 1.0` must be false). -/
def FracsPass (m : Machine) : Prop :=
  m.max_padding_frac.blt (F64.fin 0) = false ∧
  (F64.fin 1).blt m.max_padding_frac = false ∧
  m.max_blocking_frac.blt (F64.fin 0) = false ∧
  (F64.fin 1).blt m.max_blocking_frac = false

/-- A value that lies in [0.0, 1.0] in the mathematical sense: a finite
double whose rational value is between 0 and 1.  NaN and the infinities
do not satisfy this. -/
def InUnit (x : F64) : Prop := ∃ q, x = F64.fin q ∧ 0 ≤ q ∧ q ≤ 1

/-- The all-`None` distribution. -/
def distNone : Dist := ⟨DistType.none, F64.fin 0, F64.fin 0, F64.fin 0, F64.fin 0⟩

/-- A state with no transitions and all distributions `None`. -/
def trivialState : State :=
  ⟨distNone, false, distNone, false, distNone, false, fun _ => none⟩

/-- The transition vector `[1.0, 0.0005, 0.0]`: entries in [0, 1], sum
exactly `1.0005` (both values are exact doubles up to the model's exact
arithmetic). -/
def probCexVec : List F64 := [F64.fin 1, F64.fin (mkRat 1 2000), F64.fin 0]

/-- A state whose only transition vector is `probCexVec`. -/
def probCexState : State :=
  ⟨distNone, false, distNone, false, distNone, false,
    fun e => if e = Event.paddingSent then some probCexVec else none⟩

/-- A machine that satisfies every §4.2 invariant except that one
transition vector sums to exactly `1.0 + ε`. -/
def probCex : Machine := ⟨0, F64.fin 0, 0, F64.fin 0, [probCexState], false⟩

/-- A machine whose `max_padding_frac` is NaN and which satisfies every
other §4.2 invariant. -/
def nanFracM : Machine := ⟨0, F64.nan, 0, F64.fin 0, [trivialState], false⟩

/-- A machine with exactly `STATEMAX` trivial states. -/
def stateMaxM : Machine :=
  ⟨0, F64.fin 0, 0, F64.fin 0, List.replicate STATEMAX trivialState, false⟩

/-- A machine with one state, one transition vector `[0.25, 0.5, 0.0]`
and in-range fractions: it satisfies every §4.2 invariant. -/
def okVec : List F64 := [F64.fin (mkRat 1 4), F64.fin (mkRat 1 2), F64.fin 0]

def okState : State :=
  ⟨distNone, false, distNone, false, distNone, false,
    fun e => if e = Event.paddingSent then some okVec else none⟩

def okM : Machine :=
  ⟨1000, F64.fin (mkRat 1 8), 2000, F64.fin (mkRat 3 4), [okState], true⟩

/-- Like `okM` but with `max_padding_frac = 2.0`: it parses but fails
validation. -/
def badM : Machine := ⟨0, F64.fin 2, 0, F64.fin 0, [trivialState], false⟩

/-- A machine with 65536 trivial states: one more than the 2-byte
state-count field can record. -/
def bigM : Machine :=
  ⟨0, F64.fin 0, 0, F64.fin 0, List.replicate 65536 trivialState, false⟩

/-- Well-formedness of a model value as a Rust value: every scalar is
an actual 64-bit quantity. -/
def Dist.wf (d : Dist) : Prop :=
  d.param1.isDouble ∧ d.param2.isDouble ∧ d.start.isDouble ∧ d.max.isDouble

def State.wf (s : State) : Prop :=
  s.action.wf ∧ s.limit.wf ∧ s.timeout.wf ∧
  ∀ e, ∀ p ∈ (s.next_state e).getD [], p.isDouble

def Machine.WF (m : Machine) : Prop :=
  m.allowed_padding_bytes < 2 ^ 64 ∧ m.allowed_blocked_microsec < 2 ^ 64 ∧
  m.max_padding_frac.isDouble ∧ m.max_blocking_frac.isDouble ∧
  ∀ st ∈ m.states, st.wf

instance (d : Dist) : Decidable d.wf := by
  unfold Dist.wf
  infer_instance

instance (s : State) : Decidable s.wf := by
  unfold State.wf
  infer_instance

instance (m : Machine) : Decidable m.WF := by
  unfold Machine.WF
  infer_instance

/-- The sixteen lowercase hexadecimal digits, as character codes: the
ten decimal digits (codes 48-57) then the letters a-f (codes 97-102). -/
def lowercaseHexDigits : List Char :=
  (List.range 10).map (fun n => Char.ofNat (48 + n)) ++
    (List.range 6).map (fun n => Char.ofNat (97 + n))

theorem ratAdd_eq_add (a b : ℚ) : ratAdd a b = a + b :=
  (Rat.add_def' a b).symm

theorem length_bytesLE (k n : Nat) : (bytesLE k n).length = k := by
  simp [bytesLE]

theorem mem_bytesLE_lt (k n b : Nat) (hb : b ∈ bytesLE k n) : b < 256 := by
  simp only [bytesLE, List.mem_map] at hb
  obtain ⟨i, -, rfl⟩ := hb
  exact Nat.mod_lt _ (by norm_num)

theorem leNat_nil : leNat [] = 0 := rfl

theorem leNat_cons (b : Nat) (l : List Nat) : leNat (b :: l) = b + 256 * leNat l := rfl

theorem bytesLE_succ (k n : Nat) :
    bytesLE (k + 1) n = (n % 256) :: bytesLE k (n / 256) := by
  have hrange : List.range (k + 1) = 0 :: (List.range k).map (· + 1) :=
    List.range_succ_eq_map k
  simp only [bytesLE, hrange, List.map_cons, pow_zero, Nat.div_one, List.map_map]
  congr 1
  refine List.map_congr_left ?_
  intro i _
  simp only [Function.comp_apply]
  rw [pow_succ, Nat.mul_comm, ← Nat.div_div_eq_div_mul]

theorem leNat_bytesLE (k n : Nat) : leNat (bytesLE k n) = n % 256 ^ k := by
  induction k generalizing n with
  | zero => simp [bytesLE, leNat, Nat.mod_one]
  | succ k ih =>
    rw [bytesLE_succ, leNat_cons, ih (n / 256), pow_succ', Nat.mod_mul]

/-! ## Fast powers of two

The IEEE-754 codec below needs `2 ^ e` for exponents up to 1075.  The
kernel cannot unfold `Nat.pow` that far by structural recursion, so we
assemble the power from the binary digits of the exponent, with the
needed `2 ^ 2 ^ k` values given as literals.  `pow2` agrees with `2 ^ e`
for every exponent below 2048, which covers every use in the codec. -/

theorem readF64_f64Bytes_append (x : F64) (hx : x.isDouble) (rest : List Nat) :
    readF64 (f64Bytes x ++ rest) = x := by
  have hlen : (f64Bytes x).length = 8 := length_bytesLE 8 _
  have htake : (f64Bytes x ++ rest).take 8 = (f64Bytes x).take 8 :=
    List.take_append_of_le_length (by omega)
  rw [readF64, htake, ← readF64]
  exact hx

/-! ## Events -/

theorem Event.mem_order (e : Event) : e ∈ Event.order := by
  cases e <;> simp [Event.order]

theorem probOkB_iff (p : F64) :
    probOkB p = true ↔ ∃ q, p = F64.fin q ∧ 0 ≤ q ∧ q ≤ 1 := by
  cases p <;> simp [probOkB, F64.ble]

theorem checkProbs_ok_iff (v : List F64) (t t' : F64) :
    checkProbs v t = .ok t' ↔
      (∀ p ∈ v, probOkB p = true) ∧ t' = v.foldl F64.add t := by
  induction v generalizing t with
  | nil =>
    simp only [checkProbs, List.foldl_nil]
    constructor
    · intro h
      injection h with h
      exact ⟨fun p hp => absurd hp (List.not_mem_nil p), h.symm⟩
    · rintro ⟨-, rfl⟩; rfl
  | cons p v ih =>
    by_cases hp : probOkB p = true
    · have hstep : checkProbs (p :: v) t = checkProbs v (t.add p) := by
        simp [checkProbs, hp]
      rw [hstep, ih]
      simp [hp]
    · have hstep : checkProbs (p :: v) t = .error (.probOutOfRange p) := by
        simp [checkProbs, hp]
      rw [hstep]
      constructor
      · intro h; cases h
      · rintro ⟨hall, -⟩
        exact absurd (hall p (List.mem_cons_self p v)) hp

theorem foldl_add_fin (v : List F64) (a : ℚ)
    (h : ∀ p ∈ v, ∃ q, p = F64.fin q) :
    v.foldl F64.add (F64.fin a) = F64.fin (a + (v.map F64.toQ).sum) := by
  induction v generalizing a with
  | nil => simp
  | cons p v ih =>
    obtain ⟨q, rfl⟩ := h p (List.mem_cons_self p v)
    have hadd : (F64.fin a).add (F64.fin q) = F64.fin (a + q) := by
      rw [F64.add, ratAdd_eq_add]
    rw [List.foldl_cons, hadd, ih _ (fun p hp => h p (List.mem_cons_of_mem _ hp))]
    simp [F64.toQ, add_assoc]

theorem sumF_eq_fin (v : List F64) (h : ∀ p ∈ v, ∃ q, p = F64.fin q) :
    sumF v = F64.fin ((v.map F64.toQ).sum) := by
  rw [sumF, foldl_add_fin v 0 h, zero_add]

theorem checkVec_ok_iff (n : Nat) (v : List F64) :
    checkVec n v = .ok () ↔
      v.length = n + 2 ∧ (∀ p ∈ v, probOkB p = true) ∧
      (sumF v).ble (F64.fin 0) = false ∧
      (F64.fin (mkRat 10005 10000)).ble (sumF v) = false := by
  by_cases hl : v.length = n + 2
  · have hne : ¬(v.length ≠ n + 2) := fun h => h hl
    cases hcp : checkProbs v (F64.fin 0) with
    | error e =>
      have hne2 : ¬ ∀ p ∈ v, probOkB p = true := by
        intro hall
        have := (checkProbs_ok_iff v (F64.fin 0) (sumF v)).mpr ⟨hall, rfl⟩
        rw [hcp] at this
        cases this
      have hcv : checkVec n v = .error e := by
        unfold checkVec
        rw [if_neg hne, hcp]
      rw [hcv]
      constructor
      · intro h; cases h
      · rintro ⟨-, hall, -⟩; exact absurd hall hne2
    | ok t =>
      obtain ⟨hall, ht⟩ := (checkProbs_ok_iff v (F64.fin 0) t).mp hcp
      have hts : t = sumF v := ht
      subst hts
      have hcv : checkVec n v =
          if ((sumF v).ble (F64.fin 0) ||
              (F64.fin (mkRat 10005 10000)).ble (sumF v)) = true then
            .error (.probTotal (sumF v))
          else .ok () := by
        unfold checkVec
        rw [if_neg hne, hcp]
      by_cases hb : ((sumF v).ble (F64.fin 0) ||
          (F64.fin (mkRat 10005 10000)).ble (sumF v)) = true
      · rw [hcv, if_pos hb]
        constructor
        · intro h; cases h
        · rintro ⟨-, -, hf1, hf2⟩
          rw [hf1, hf2] at hb
          cases hb
      · rw [hcv, if_neg hb]
        simp only [Bool.or_eq_true, not_or, Bool.not_eq_true] at hb
        constructor
        · intro _; exact ⟨hl, hall, hb.1, hb.2⟩
        · intro _; rfl
  · have hcv : checkVec n v = .error (.nextVectorLen (n + 2) v.length) := by
      unfold checkVec
      rw [if_pos hl]
    rw [hcv]
    constructor
    · intro h; cases h
    · rintro ⟨h, -⟩; exact absurd h hl

theorem mkRat_bound_val : (mkRat 10005 10000 : ℚ) = 10005 / 10000 := by
  rw [Rat.mkRat_eq_div]
  norm_num

theorem checkVec_ok_iff_spec (n : Nat) (v : List F64) :
    checkVec n v = .ok () ↔ VecSpecOk n v := by
  rw [checkVec_ok_iff, VecSpecOk]
  constructor
  · rintro ⟨hl, hall, hble1, hble2⟩
    have hfin : ∀ p ∈ v, ∃ q, p = F64.fin q := fun p hp =>
      ((probOkB_iff p).mp (hall p hp)).imp fun q hq => hq.1
    rw [sumF_eq_fin v hfin] at hble1 hble2
    refine ⟨hl, fun p hp => (probOkB_iff p).mp (hall p hp), ?_, ?_⟩
    · simpa [F64.ble] using hble1
    · have := hble2
      simp only [F64.ble, decide_eq_false_iff_not, not_le] at this
      rw [← mkRat_bound_val]
      exact this
  · rintro ⟨hl, hall, hpos, hlt⟩
    have hfin : ∀ p ∈ v, ∃ q, p = F64.fin q := fun p hp =>
      (hall p hp).imp fun q hq => hq.1
    refine ⟨hl, fun p hp => (probOkB_iff p).mpr (hall p hp), ?_, ?_⟩
    · rw [sumF_eq_fin v hfin]
      simpa [F64.ble] using hpos
    · rw [sumF_eq_fin v hfin]
      simp only [F64.ble, decide_eq_false_iff_not, not_le]
      rw [mkRat_bound_val]
      exact hlt

theorem checkNextStates_ok_iff (n : Nat) (f : Event → Option (List F64))
    (es : List Event) :
    checkNextStates n f es = .ok () ↔
      ∀ e ∈ es, ∀ v, f e = some v → checkVec n v = .ok () := by
  induction es with
  | nil => simp [checkNextStates]
  | cons e es ih =>
    cases hf : f e with
    | none =>
      rw [show checkNextStates n f (e :: es) = checkNextStates n f es by
        simp [checkNextStates, hf], ih]
      constructor
      · intro h e' he' v hv
        rcases List.mem_cons.mp he' with rfl | he'
        · rw [hf] at hv; cases hv
        · exact h e' he' v hv
      · intro h e' he' v hv
        exact h e' (List.mem_cons_of_mem _ he') v hv
    | some v =>
      cases hcv : checkVec n v with
      | error err =>
        rw [show checkNextStates n f (e :: es) = .error err by
          simp [checkNextStates, hf, hcv]]
        constructor
        · intro h; cases h
        · intro h
          have := h e (List.mem_cons_self e es) v hf
          rw [hcv] at this
          cases this
      | ok u =>
        cases u
        rw [show checkNextStates n f (e :: es) = checkNextStates n f es by
          simp [checkNextStates, hf, hcv], ih]
        constructor
        · intro h e' he' v' hv'
          rcases List.mem_cons.mp he' with rfl | he'
          · rw [hf] at hv'; injection hv' with hv'; rw [← hv']; exact hcv
          · exact h e' he' v' hv'
        · intro h e' he' v' hv'
          exact h e' (List.mem_cons_of_mem _ he') v' hv'

theorem checkState_ok_iff (n : Nat) (st : State) :
    checkState n st = .ok () ↔ StateSpecOk n st := by
  unfold checkState StateSpecOk
  cases hns : checkNextStates n st.next_state Event.order with
  | error e =>
    constructor
    · intro h; cases h
    · rintro ⟨hvecs, -⟩
      have : checkNextStates n st.next_state Event.order = .ok () := by
        rw [checkNextStates_ok_iff]
        intro e' _ v hv
        exact (checkVec_ok_iff_spec n v).mpr (hvecs e' v hv)
      rw [hns] at this
      cases this
  | ok u =>
    cases u
    have hvecs : ∀ e v, st.next_state e = some v → VecSpecOk n v := by
      intro e v hv
      exact (checkVec_ok_iff_spec n v).mp
        ((checkNextStates_ok_iff n st.next_state Event.order).mp hns e
          (Event.mem_order e) v hv)
    cases ha : st.action.validate with
    | error e =>
      constructor
      · intro h; cases h
      · rintro ⟨-, h, -⟩
        cases h
    | ok u =>
      cases u
      cases hl : st.limit.validate with
      | error e =>
        constructor
        · intro h; cases h
        · rintro ⟨-, -, h, -⟩
          cases h
      | ok u =>
        cases u
        constructor
        · intro h; exact ⟨hvecs, rfl, rfl, h⟩
        · rintro ⟨-, -, -, h⟩; exact h

theorem checkStates_ok_iff (n : Nat) (l : List State) :
    checkStates n l = .ok () ↔ ∀ st ∈ l, checkState n st = .ok () := by
  induction l with
  | nil => simp [checkStates]
  | cons st l ih =>
    cases hcs : checkState n st with
    | error e =>
      rw [show checkStates n (st :: l) = .error e by simp [checkStates, hcs]]
      constructor
      · intro h; cases h
      · intro h
        have := h st (List.mem_cons_self st l)
        rw [hcs] at this; cases this
    | ok u =>
      cases u
      rw [show checkStates n (st :: l) = checkStates n l by
        simp [checkStates, hcs], ih]
      constructor
      · intro h st' hst'
        rcases List.mem_cons.mp hst' with rfl | hst'
        · exact hcs
        · exact h st' hst'
      · intro h st' hst'
        exact h st' (List.mem_cons_of_mem _ hst')

/-- The complete acceptance condition of `Machine::validate`. -/
theorem validate_ok_iff (m : Machine) :
    m.validate = .ok () ↔
      FracsPass m ∧ 1 ≤ m.states.length ∧ m.states.length ≤ STATEMAX ∧
      ∀ st ∈ m.states, StateSpecOk m.states.length st := by
  unfold Machine.validate FracsPass
  by_cases h1 : (m.max_padding_frac.blt (F64.fin 0) ||
      (F64.fin 1).blt m.max_padding_frac) = true
  · rw [if_pos h1]
    constructor
    · intro h; cases h
    · rintro ⟨⟨ha, hb, -⟩, -⟩
      rw [ha, hb] at h1; cases h1
  · rw [if_neg h1]
    simp only [Bool.or_eq_true, not_or, Bool.not_eq_true] at h1
    by_cases h2 : (m.max_blocking_frac.blt (F64.fin 0) ||
        (F64.fin 1).blt m.max_blocking_frac) = true
    · rw [if_pos h2]
      constructor
      · intro h; cases h
      · rintro ⟨⟨-, -, hc, hd⟩, -⟩
        rw [hc, hd] at h2; cases h2
    · rw [if_neg h2]
      simp only [Bool.or_eq_true, not_or, Bool.not_eq_true] at h2
      by_cases h3 : m.states.isEmpty = true
      · rw [if_pos h3]
        rw [List.isEmpty_iff_length_eq_zero] at h3
        constructor
        · intro h; cases h
        · rintro ⟨-, hlen, -⟩; omega
      · rw [if_neg h3]
        rw [List.isEmpty_iff_length_eq_zero] at h3
        by_cases h4 : STATEMAX < m.states.length
        · rw [if_pos h4]
          constructor
          · intro h; cases h
          · rintro ⟨-, -, hlen, -⟩; omega
        · rw [if_neg h4]
          rw [checkStates_ok_iff]
          constructor
          · intro h
            exact ⟨⟨h1.1, h1.2, h2.1, h2.2⟩, by omega, by omega,
              fun st hst => (checkState_ok_iff _ st).mp (h st hst)⟩
          · rintro ⟨-, -, -, h⟩
            exact fun st hst => (checkState_ok_iff _ st).mpr (h st hst)

/-! ## Spec-level predicates and concrete machines for the claims -/

theorem fracsPass_of_inUnit (m : Machine)
    (h1 : InUnit m.max_padding_frac) (h2 : InUnit m.max_blocking_frac) :
    FracsPass m := by
  obtain ⟨q1, hq1, hq1a, hq1b⟩ := h1
  obtain ⟨q2, hq2, hq2a, hq2b⟩ := h2
  refine ⟨?_, ?_, ?_, ?_⟩
  · rw [hq1]; simp [F64.blt]; exact hq1a
  · rw [hq1]; simp [F64.blt]; exact hq1b
  · rw [hq2]; simp [F64.blt]; exact hq2a
  · rw [hq2]; simp [F64.blt]; exact hq2b

theorem trivialState_specOk (n : Nat) : StateSpecOk n trivialState := by
  refine ⟨?_, rfl, rfl, rfl⟩
  intro e v hv
  cases hv

/-- C3 counterexample: the machine `probCex` satisfies the claim's
hypotheses — every other §4.2 invariant holds, every transition-vector
entry is in [0.0, 1.0] and every vector's sum lies in the claimed
interval (0.0, 1.0 + ε] with ε = 0.0005 (the sum is exactly 1.0005) —
yet `validate` fails, and fails with precisely the probability-mass
check.  The source (machine.rs:129) rejects `p_total >= 1.0005`, so the
upper endpoint of the claimed interval is excluded. -/
theorem C3_counterexample :
    InUnit probCex.max_padding_frac ∧ InUnit probCex.max_blocking_frac ∧
    1 ≤ probCex.states.length ∧ probCex.states.length ≤ STATEMAX ∧
    (∀ st ∈ probCex.states, ∀ e v, st.next_state e = some v →
      v.length = probCex.states.length + 2 ∧
      (∀ p ∈ v, ∃ q, p = F64.fin q ∧ 0 ≤ q ∧ q ≤ 1) ∧
      0 < (v.map F64.toQ).sum ∧ (v.map F64.toQ).sum ≤ 1 + 5 / 10000) ∧
    (∀ st ∈ probCex.states, st.action.validate = .ok () ∧
      st.limit.validate = .ok () ∧ st.timeout.validate = .ok ()) ∧
    probCex.validate = .error (.probTotal (F64.fin (mkRat 2001 2000))) := by
  have hstates : probCex.states = [probCexState] := rfl
  refine ⟨⟨0, rfl, le_refl 0, by norm_num⟩, ⟨0, rfl, le_refl 0, by norm_num⟩,
    by rw [hstates]; simp, by rw [hstates]; simp [STATEMAX], ?_, ?_, by decide⟩
  · intro st hst e v hv
    rw [hstates, List.mem_singleton] at hst
    subst hst
    have hns : probCexState.next_state e =
        if e = Event.paddingSent then some probCexVec else none := rfl
    rw [hns] at hv
    by_cases he : e = Event.paddingSent
    · rw [if_pos he] at hv
      injection hv with hv
      subst hv
      refine ⟨by rw [hstates]; rfl, ?_, ?_, ?_⟩
      · intro p hp
        rw [probCexVec] at hp
        simp only [List.mem_cons, List.not_mem_nil, or_false] at hp
        rcases hp with rfl | rfl | rfl
        · exact ⟨1, rfl, by norm_num, by norm_num⟩
        · exact ⟨mkRat 1 2000, rfl, by rw [Rat.mkRat_eq_div]; norm_num,
            by rw [Rat.mkRat_eq_div]; norm_num⟩
        · exact ⟨0, rfl, by norm_num, by norm_num⟩
      · rw [probCexVec]
        simp only [List.map_cons, List.map_nil, List.sum_cons, List.sum_nil]
        rw [show F64.toQ (F64.fin 1) = 1 from rfl,
          show F64.toQ (F64.fin (mkRat 1 2000)) = mkRat 1 2000 from rfl,
          show F64.toQ (F64.fin 0) = 0 from rfl, Rat.mkRat_eq_div]
        norm_num
      · rw [probCexVec]
        simp only [List.map_cons, List.map_nil, List.sum_cons, List.sum_nil]
        rw [show F64.toQ (F64.fin 1) = 1 from rfl,
          show F64.toQ (F64.fin (mkRat 1 2000)) = mkRat 1 2000 from rfl,
          show F64.toQ (F64.fin 0) = 0 from rfl, Rat.mkRat_eq_div]
        norm_num
    · rw [if_neg he] at hv
      cases hv
  · intro st hst
    rw [hstates, List.mem_singleton] at hst
    subst hst
    exact ⟨rfl, rfl, rfl⟩

/-- C3 (amended): for a machine satisfying all the other §4.2
invariants, `validate` succeeds exactly when every present transition
vector has all entries in [0.0, 1.0] and a sum in the OPEN interval
(0.0, 1.0 + ε), ε = 0.0005: the source rejects sums that are greater
than or EQUAL to 1.0005 (machine.rs:129), so the upper endpoint is
excluded, unlike the half-open interval (0.0, 1.0 + ε] the claim
states.  (In this model the entry sum is exact; the source accumulates
it in f64 arithmetic.) -/
theorem C3_probability_mass (m : Machine)
    (hf1 : InUnit m.max_padding_frac) (hf2 : InUnit m.max_blocking_frac)
    (hc1 : 1 ≤ m.states.length) (hc2 : m.states.length ≤ STATEMAX)
    (hlen : ∀ st ∈ m.states, ∀ e v, st.next_state e = some v →
      v.length = m.states.length + 2)
    (hd : ∀ st ∈ m.states, st.action.validate = .ok () ∧
      st.limit.validate = .ok () ∧ st.timeout.validate = .ok ()) :
    m.validate = .ok () ↔
      ∀ st ∈ m.states, ∀ e v, st.next_state e = some v →
        (∀ p ∈ v, ∃ q, p = F64.fin q ∧ 0 ≤ q ∧ q ≤ 1) ∧
        0 < (v.map F64.toQ).sum ∧ (v.map F64.toQ).sum < 1 + 5 / 10000 := by
  rw [validate_ok_iff]
  have h1005 : (10005 : ℚ) / 10000 = 1 + 5 / 10000 := by norm_num
  constructor
  · rintro ⟨-, -, -, hst⟩ st hstm e v hv
    obtain ⟨hvec, -⟩ := hst st hstm
    have h := hvec e v hv
    rw [VecSpecOk] at h
    obtain ⟨-, h2, h3, h4⟩ := h
    exact ⟨h2, h3, by rw [← h1005]; exact h4⟩
  · intro h
    refine ⟨fracsPass_of_inUnit m hf1 hf2, hc1, hc2, ?_⟩
    intro st hstm
    refine ⟨?_, (hd st hstm).1, (hd st hstm).2.1, (hd st hstm).2.2⟩
    intro e v hv
    obtain ⟨h2, h3, h4⟩ := h st hstm e v hv
    rw [VecSpecOk]
    exact ⟨hlen st hstm e v hv, h2, h3, by rw [h1005]; exact h4⟩

/-- C3 witness: the amended theorem applied to the concrete valid
machine `okM`, whose single vector `[0.25, 0.5, 0.0]` sums to 0.75. -/
theorem C3_witness :
    okM.validate = .ok () ∧
    ∀ st ∈ okM.states, ∀ e v, st.next_state e = some v →
      0 < (v.map F64.toQ).sum ∧ (v.map F64.toQ).sum < 1 + 5 / 10000 := by
  have hstates : okM.states = [okState] := rfl
  have hf1 : InUnit okM.max_padding_frac :=
    ⟨mkRat 1 8, rfl, by rw [Rat.mkRat_eq_div]; norm_num,
      by rw [Rat.mkRat_eq_div]; norm_num⟩
  have hf2 : InUnit okM.max_blocking_frac :=
    ⟨mkRat 3 4, rfl, by rw [Rat.mkRat_eq_div]; norm_num,
      by rw [Rat.mkRat_eq_div]; norm_num⟩
  have hlen : ∀ st ∈ okM.states, ∀ e v, st.next_state e = some v →
      v.length = okM.states.length + 2 := by
    intro st hst e v hv
    rw [hstates, List.mem_singleton] at hst
    subst hst
    have hns : okState.next_state e =
        if e = Event.paddingSent then some okVec else none := rfl
    rw [hns] at hv
    by_cases he : e = Event.paddingSent
    · rw [if_pos he] at hv
      injection hv with hv
      rw [← hv, hstates]
      rfl
    · rw [if_neg he] at hv; cases hv
  have hd : ∀ st ∈ okM.states, st.action.validate = .ok () ∧
      st.limit.validate = .ok () ∧ st.timeout.validate = .ok () := by
    intro st hst
    rw [hstates, List.mem_singleton] at hst
    subst hst
    exact ⟨rfl, rfl, rfl⟩
  have hiff := C3_probability_mass okM hf1 hf2
    (by rw [hstates]; simp) (by rw [hstates]; simp [STATEMAX]) hlen hd
  have hok : okM.validate = .ok () := by decide
  exact ⟨hok, fun st hst e v hv => ((hiff.mp hok) st hst e v hv).2⟩

/-- C4 counterexample: `nanFracM` has `max_padding_frac = NaN`, which
lies outside [0.0, 1.0], and satisfies every other §4.2 invariant; the
claim therefore requires `validate` to fail, but it succeeds: the
source's check `x < 0.0 || x > 1.0` (machine.rs:79) is false for NaN
under IEEE comparison semantics. -/
theorem C4_counterexample :
    nanFracM.max_padding_frac = F64.nan ∧
    ¬ InUnit nanFracM.max_padding_frac ∧
    1 ≤ nanFracM.states.length ∧ nanFracM.states.length ≤ STATEMAX ∧
    (∀ st ∈ nanFracM.states, StateSpecOk nanFracM.states.length st) ∧
    nanFracM.validate = .ok () := by
  have hstates : nanFracM.states = [trivialState] := rfl
  refine ⟨rfl, ?_, by rw [hstates]; simp, by rw [hstates]; simp [STATEMAX],
    ?_, by decide⟩
  · rintro ⟨q, hq, -⟩
    cases hq
  · intro st hst
    rw [hstates, List.mem_singleton] at hst
    subst hst
    exact trivialState_specOk _

/-- C4 (amended): for a machine whose states and state count satisfy
the other §4.2 invariants, `validate` succeeds iff the source's own
IEEE fraction checks pass, i.e. iff neither `max_padding_frac < 0.0`,
`max_padding_frac > 1.0`, `max_blocking_frac < 0.0` nor
`max_blocking_frac > 1.0` holds as an IEEE comparison (`F64.blt`).
NaN satisfies none of these comparisons, so a NaN fraction — though
outside [0.0, 1.0] — is NOT rejected. -/
theorem C4_fraction_bounds (m : Machine)
    (hc1 : 1 ≤ m.states.length) (hc2 : m.states.length ≤ STATEMAX)
    (hst : ∀ st ∈ m.states, StateSpecOk m.states.length st) :
    m.validate = .ok () ↔ FracsPass m := by
  rw [validate_ok_iff]
  constructor
  · rintro ⟨h, -⟩; exact h
  · intro h; exact ⟨h, hc1, hc2, hst⟩

/-- C4 witness: the amended theorem applied to `okM`. -/
theorem C4_witness : okM.validate = .ok () ∧ FracsPass okM := by
  have hstates : okM.states = [okState] := rfl
  have hst : ∀ st ∈ okM.states, StateSpecOk okM.states.length st := by
    intro st hstm
    rw [hstates, List.mem_singleton] at hstm
    subst hstm
    refine ⟨?_, rfl, rfl, rfl⟩
    intro e v hv
    have hns : okState.next_state e =
        if e = Event.paddingSent then some okVec else none := rfl
    rw [hns] at hv
    by_cases he : e = Event.paddingSent
    · rw [if_pos he] at hv
      injection hv with hv
      subst hv
      refine ⟨by rw [hstates]; rfl, ?_, ?_, ?_⟩
      · intro p hp
        rw [okVec] at hp
        simp only [List.mem_cons, List.not_mem_nil, or_false] at hp
        rcases hp with rfl | rfl | rfl
        · exact ⟨mkRat 1 4, rfl, by rw [Rat.mkRat_eq_div]; norm_num,
            by rw [Rat.mkRat_eq_div]; norm_num⟩
        · exact ⟨mkRat 1 2, rfl, by rw [Rat.mkRat_eq_div]; norm_num,
            by rw [Rat.mkRat_eq_div]; norm_num⟩
        · exact ⟨0, rfl, by norm_num, by norm_num⟩
      · rw [okVec]
        simp only [List.map_cons, List.map_nil, List.sum_cons, List.sum_nil]
        rw [show F64.toQ (F64.fin (mkRat 1 4)) = mkRat 1 4 from rfl,
          show F64.toQ (F64.fin (mkRat 1 2)) = mkRat 1 2 from rfl,
          show F64.toQ (F64.fin 0) = 0 from rfl, Rat.mkRat_eq_div,
          Rat.mkRat_eq_div]
        norm_num
      · rw [okVec]
        simp only [List.map_cons, List.map_nil, List.sum_cons, List.sum_nil]
        rw [show F64.toQ (F64.fin (mkRat 1 4)) = mkRat 1 4 from rfl,
          show F64.toQ (F64.fin (mkRat 1 2)) = mkRat 1 2 from rfl,
          show F64.toQ (F64.fin 0) = 0 from rfl, Rat.mkRat_eq_div,
          Rat.mkRat_eq_div]
        norm_num
    · rw [if_neg he] at hv
      cases hv
  have hiff := C4_fraction_bounds okM (by rw [hstates]; simp)
    (by rw [hstates]; simp [STATEMAX]) hst
  have hfp : FracsPass okM := by
    refine ⟨?_, ?_, ?_, ?_⟩ <;> decide
  exact ⟨hiff.mpr hfp, hfp⟩

/-- C7: `validate` fails for an empty state list, fails when the state
count exceeds `STATEMAX`, and succeeds for a machine with exactly
`STATEMAX` states whose other invariants all hold. -/
theorem C7_state_count_bounds (m : Machine) :
    (m.states = [] → m.validate ≠ .ok ()) ∧
    (STATEMAX < m.states.length → m.validate ≠ .ok ()) ∧
    (m.states.length = STATEMAX → InUnit m.max_padding_frac →
      InUnit m.max_blocking_frac →
      (∀ st ∈ m.states, StateSpecOk m.states.length st) →
      m.validate = .ok ()) := by
  refine ⟨?_, ?_, ?_⟩
  · intro h hv
    obtain ⟨-, hlen, -⟩ := (validate_ok_iff m).mp hv
    rw [h] at hlen
    simp at hlen
  · intro h hv
    obtain ⟨-, -, hlen, -⟩ := (validate_ok_iff m).mp hv
    exact absurd hlen (not_le.mpr h)
  · intro hlen h1 h2 hst
    exact (validate_ok_iff m).mpr
      ⟨fracsPass_of_inUnit m h1 h2, by rw [hlen]; decide,
        by rw [hlen], hst⟩

/-- C7 witness: the boundary case — `stateMaxM` has exactly `STATEMAX`
trivial states and validates. -/
theorem C7_witness :
    stateMaxM.states.length = STATEMAX ∧ stateMaxM.validate = .ok () := by
  have hlen : stateMaxM.states.length = STATEMAX := by
    rw [show stateMaxM.states = List.replicate STATEMAX trivialState from rfl]
    simp
  refine ⟨hlen, (C7_state_count_bounds stateMaxM).2.2 hlen
    ⟨0, rfl, le_refl 0, by norm_num⟩ ⟨0, rfl, le_refl 0, by norm_num⟩ ?_⟩
  intro st hst
  rw [show stateMaxM.states = List.replicate STATEMAX trivialState from rfl]
    at hst
  rw [List.eq_of_mem_replicate hst]
  exact trivialState_specOk _

/-- C5: for every input whose hex decoding and inflation succeed with a
buffer of at least 2 bytes, a leading 2-byte little-endian version tag
other than 1 makes `from_str` fail with the "unsupported version"
error, whatever the rest of the buffer holds. -/
theorem C5_version_gate (inflate : List Nat → InflateResult) (s : List Char)
    (c buf : List Nat) (hhex : hexDecode s = .ok c)
    (hinf : inflate c = .ok buf) (hlen : 2 ≤ buf.length)
    (hv : leNat (buf.take 2) ≠ 1) :
    Machine.from_str inflate s =
      .err (.unsupportedVersion (leNat (buf.take 2))) := by
  unfold Machine.from_str
  simp only [hhex, hinf]
  unfold parseMachineBuf
  rw [if_neg (by omega)]
  cases hn : leNat (buf.take 2) with
  | zero => rfl
  | succ k =>
    cases k with
    | zero => exact absurd hn hv
    | succ k2 => rfl

/-- C5 witness: a buffer with version tag 2 is rejected. -/
theorem C5_witness :
    Machine.from_str (fun _ => InflateResult.ok [2, 0]) [] =
      .err (.unsupportedVersion 2) := by
  have h := C5_version_gate (fun _ => InflateResult.ok [2, 0]) [] [] [2, 0]
    rfl rfl (by decide) (by decide)
  simpa using h

/-- C6: whenever the fixed header of a version-1 payload parses (the
buffer holds at least the 35 header bytes) but the bytes remaining
after the `num_states` field are not exactly
`perStateSize num_states * num_states`, decoding fails with the length
mismatch error — no machine, partial or otherwise, is produced. -/
theorem C6_length_gate (buf : List Nat)
    (hh : 4 * 8 + 1 + 2 ≤ buf.length)
    (hmis : buf.length - 35 ≠
      perStateSize (leNat ((buf.drop 33).take 2)) *
        leNat ((buf.drop 33).take 2)) :
    parse_v1_machine buf =
      .err (.stateLenMismatch
        (perStateSize (leNat ((buf.drop 33).take 2)) *
          leNat ((buf.drop 33).take 2))
        (leNat ((buf.drop 33).take 2))
        (buf.length - 35)) := by
  have hdrop : (buf.drop 35).length = buf.length - 35 := List.length_drop 35 buf
  unfold parse_v1_machine parse_v1_pre
  rw [if_neg (by omega)]
  rw [hdrop]
  rw [if_pos hmis]

/-- C6 witness: a 36-byte all-zero payload declares 0 states but has
one trailing byte, and is rejected. -/
theorem C6_witness :
    parse_v1_machine (List.replicate 36 0) =
      .err (.stateLenMismatch 0 0 1) := by
  have h := C6_length_gate (List.replicate 36 0) (by simp) (by decide)
  have h0 : leNat (((List.replicate 36 (0 : Nat)).drop 33).take 2) = 0 := by
    decide
  rw [h0] at h
  simpa using h

/-- C8: decoding always ends with validation — (a) any machine
`from_str` returns satisfies `validate`, and (b) a version-1 payload
that parses into a machine failing validation is rejected with exactly
that validation error. -/
theorem C8_validation_gate :
    (∀ (inflate : List Nat → InflateResult) (s : List Char) (m : Machine),
      Machine.from_str inflate s = .ok m → m.validate = .ok ()) ∧
    (∀ (buf : List Nat) (m : Machine) (e : VError),
      parse_v1_pre buf = .ok m → m.validate = .error e →
      parse_v1_machine buf = .err (.validation e)) := by
  have hb : ∀ (buf : List Nat) (m : Machine) (e : VError),
      parse_v1_pre buf = .ok m → m.validate = .error e →
      parse_v1_machine buf = .err (.validation e) := by
    intro buf m e hpre hval
    unfold parse_v1_machine
    simp only [hpre, hval]
  have hv1 : ∀ (buf : List Nat) (m : Machine),
      parse_v1_machine buf = .ok m → m.validate = .ok () := by
    intro buf m h
    unfold parse_v1_machine at h
    cases hpre : parse_v1_pre buf with
    | ok m' =>
      simp only [hpre] at h
      cases hval : m'.validate with
      | error e => simp only [hval] at h; cases h
      | ok u =>
        cases u
        simp only [hval] at h
        injection h with h
        rw [← h]
        exact hval
    | err e => simp only [hpre] at h; cases h
    | panic => simp only [hpre] at h; cases h
  refine ⟨?_, hb⟩
  intro inflate s m h
  unfold Machine.from_str at h
  cases hhex : hexDecode s with
  | error u => cases u; simp only [hhex] at h; cases h
  | ok c =>
    simp only [hhex] at h
    cases hinf : inflate c with
    | headerErr => simp only [hinf] at h; cases h
    | readErr => simp only [hinf] at h; cases h
    | ok buf =>
      simp only [hinf] at h
      unfold parseMachineBuf at h
      by_cases hlen : buf.length < 2
      · rw [if_pos hlen] at h; cases h
      · rw [if_neg hlen] at h
        cases hn : leNat (buf.take 2) with
        | zero => simp only [hn] at h; cases h
        | succ k =>
          cases k with
          | zero =>
            simp only [hn] at h
            exact hv1 (buf.drop 2) m h
          | succ k2 => simp only [hn] at h; cases h

/-- C8 witness: part (a) at the machine `okM` decoded from its own
serialization, part (b) at the syntactically well-formed payload of
`badM`, whose fraction 2.0 fails validation. -/
theorem C8_witness :
    okM.validate = .ok () ∧
    parse_v1_machine ((Machine.serializeBytes badM).drop 2) =
      .err (.validation (.maxPaddingFrac (F64.fin 2))) := by
  constructor
  · exact C8_validation_gate.1 (fun bs => InflateResult.ok bs)
      (Machine.serialize (fun bs => bs) okM) okM (by decide)
  · exact C8_validation_gate.2 ((Machine.serializeBytes badM).drop 2) badM
      (.maxPaddingFrac (F64.fin 2)) (by decide) (by decide)

/-- C2: the claim that `from_str` never panics on malformed input is
violated by the source: when the zlib header parses but the deflate
stream is corrupt or truncated, `read_to_end` returns an error and the
`unwrap()` at machine.rs:49 panics instead of returning a typed
error.  (The analogous `unwrap()` on `parse_state` at machine.rs:223
is modelled the same way.) -/
theorem C2_panic_on_read_error (inflate : List Nat → InflateResult)
    (s : List Char) (c : List Nat)
    (hhex : hexDecode s = .ok c) (hread : inflate c = .readErr) :
    Machine.from_str inflate s = .panic := by
  unfold Machine.from_str
  simp only [hhex, hread]

/-- C2 witness: the hex input "789c00" — a valid zlib header followed
by a truncated deflate stream, on which the decoder reports a read
error — makes `from_str` panic. -/
theorem C2_witness :
    Machine.from_str (fun _ => InflateResult.readErr)
      ['7', '8', '9', 'c', '0', '0'] = .panic :=
  C2_panic_on_read_error (fun _ => InflateResult.readErr)
    ['7', '8', '9', 'c', '0', '0'] [0x78, 0x9c, 0] (by decide) rfl

/-! ## Lengths of the serialized forms -/

theorem sum_map_const {α : Type _} (l : List α) (c : Nat) :
    (l.map fun _ => c).sum = l.length * c := by
  induction l with
  | nil => simp
  | cons x l ih => simp [ih, Nat.succ_mul, Nat.add_comm]

theorem length_f64Bytes (x : F64) : (f64Bytes x).length = 8 :=
  length_bytesLE 8 _

theorem length_dist_serialize (d : Dist) :
    d.serialize.length = SERIALIZEDDISTSIZE := by
  simp [Dist.serialize, SERIALIZEDDISTSIZE, length_bytesLE, length_f64Bytes]

theorem length_serializeVec (n : Nat) (ov : Option (List F64)) :
    (serializeVec n ov).length = (n + 2) * 8 := by
  cases ov with
  | none =>
    rw [serializeVec, List.length_join, List.map_map]
    have : ((List.range (n + 2)).map
        (List.length ∘ fun _ => f64Bytes (F64.fin 0))) =
        (List.range (n + 2)).map fun _ => 8 := by
      refine List.map_congr_left fun i _ => ?_
      simp [length_f64Bytes]
    rw [this, sum_map_const]
    simp [Nat.mul_comm]
  | some v =>
    rw [serializeVec, List.length_join, List.map_map]
    have : ((List.range (n + 2)).map
        (List.length ∘ fun i => f64Bytes (v.getD i (F64.fin 0)))) =
        (List.range (n + 2)).map fun _ => 8 := by
      refine List.map_congr_left fun i _ => ?_
      simp [length_f64Bytes]
    rw [this, sum_map_const]
    simp [Nat.mul_comm]

theorem length_state_serialize (n : Nat) (st : State) :
    (State.serialize n st).length = perStateSize n := by
  rw [State.serialize, perStateSize]
  simp only [List.length_append, length_dist_serialize, List.length_join,
    List.map_map, List.length_cons, List.length_nil]
  have : ((Event.order.map
      (List.length ∘ fun e => serializeVec n (st.next_state e)))) =
      Event.order.map fun _ => (n + 2) * 8 := by
    refine List.map_congr_left fun e _ => ?_
    simp [length_serializeVec]
  rw [this, sum_map_const]
  have hord : Event.order.length = 7 := rfl
  rw [hord]
  simp [SERIALIZEDDISTSIZE]
  ring

/-- The header and state-block decomposition of the serialized form. -/
theorem serializeBytes_decomp (m : Machine) :
    Machine.serializeBytes m =
      (bytesLE 2 VERSION ++ bytesLE 8 m.allowed_padding_bytes ++
        f64Bytes m.max_padding_frac ++ bytesLE 8 m.allowed_blocked_microsec ++
        f64Bytes m.max_blocking_frac ++ [boolByte m.include_small_packets]) ++
      (bytesLE 2 m.states.length ++
        (m.states.map (State.serialize m.states.length)).join) := by
  rw [Machine.serializeBytes]
  simp [List.append_assoc]

theorem length_serializeBytes_header (m : Machine) :
    (bytesLE 2 VERSION ++ bytesLE 8 m.allowed_padding_bytes ++
      f64Bytes m.max_padding_frac ++ bytesLE 8 m.allowed_blocked_microsec ++
      f64Bytes m.max_blocking_frac ++
      [boolByte m.include_small_packets]).length = 35 := by
  simp [length_bytesLE, length_f64Bytes]

/-- C10: `serialize` writes the state count into the 2-byte
`num_states` field as `states.len() mod 2^16` — the unchecked
`num_states as u16` cast of machine.rs:168 — while still emitting one
fixed-size block for each of the `states.len()` states (conjunct two
gives the total byte length); hence for more than 65535 states the
recorded count disagrees with the number of blocks written. -/
theorem C10_u16_cast (m : Machine) :
    leNat (((Machine.serializeBytes m).drop 35).take 2) =
      m.states.length % 2 ^ 16 ∧
    (Machine.serializeBytes m).length =
      37 + m.states.length * perStateSize m.states.length ∧
    (2 ^ 16 ≤ m.states.length →
      leNat (((Machine.serializeBytes m).drop 35).take 2) ≠
        m.states.length) := by
  have hfield : leNat (((Machine.serializeBytes m).drop 35).take 2) =
      m.states.length % 2 ^ 16 := by
    rw [serializeBytes_decomp, List.drop_left' (length_serializeBytes_header m),
      List.take_left' (length_bytesLE 2 m.states.length), leNat_bytesLE]
    norm_num
  refine ⟨hfield, ?_, ?_⟩
  · have hjoin : ((m.states.map (State.serialize m.states.length)).join).length =
        m.states.length * perStateSize m.states.length := by
      rw [List.length_join, List.map_map]
      have : (m.states.map (List.length ∘ State.serialize m.states.length)) =
          m.states.map fun _ => perStateSize m.states.length := by
        refine List.map_congr_left fun st _ => ?_
        simp [length_state_serialize]
      rw [this, sum_map_const]
    rw [serializeBytes_decomp, List.length_append,
      length_serializeBytes_header, List.length_append, length_bytesLE, hjoin]
    omega
  · intro hbig
    rw [hfield]
    have := Nat.mod_lt m.states.length (show 0 < 2 ^ 16 by norm_num)
    omega

/-- C10 witness: a machine with 65536 trivial states records a wrapped
state count that disagrees with its actual state count. -/
theorem C10_witness :
    2 ^ 16 ≤ (65536 : Nat) ∧
    leNat (((Machine.serializeBytes bigM).drop 35).take 2) ≠ 65536 := by
  have hlen : bigM.states.length = 65536 := by
    rw [show bigM.states = List.replicate 65536 trivialState from rfl]
    exact List.length_replicate 65536 trivialState
  refine ⟨by norm_num, ?_⟩
  have h := (C10_u16_cast bigM).2.2
  rw [hlen] at h
  exact h (by norm_num)

/-! ## Round-trip building blocks -/

theorem zero_isDouble : F64.isDouble (F64.fin 0) := by decide

theorem leNat_bytesLE_append (k n : Nat) (rest : List Nat) :
    leNat ((bytesLE k n ++ rest).take k) = n % 256 ^ k := by
  rw [List.take_left' (length_bytesLE k n), leNat_bytesLE]

/-- Dropping `i` chunks off a join of fixed-size chunks, head form. -/
theorem join_drop_chunk {c : Nat} (chunks : List (List Nat))
    (h : ∀ ch ∈ chunks, ch.length = c) (i : Nat) (hi : i < chunks.length)
    (rest : List Nat) :
    ∃ tail, (chunks.join ++ rest).drop (i * c) = chunks.getD i [] ++ tail := by
  induction i generalizing chunks with
  | zero =>
    cases chunks with
    | nil => cases hi
    | cons ch r =>
      refine ⟨r.join ++ rest, ?_⟩
      simp [List.join, List.append_assoc]
  | succ i ih =>
    cases chunks with
    | nil => cases hi
    | cons ch r =>
      have hch : ch.length = c := h ch (List.mem_cons_self ch r)
      have hr : ∀ x ∈ r, x.length = c := fun x hx => h x (List.mem_cons_of_mem _ hx)
      have hir : i < r.length := by
        simp only [List.length_cons] at hi
        omega
      obtain ⟨tail, htail⟩ := ih r hr hir
      refine ⟨tail, ?_⟩
      have hsucc : (i + 1) * c = ch.length + i * c := by
        rw [hch]; ring
      rw [show (ch :: r).join = ch ++ r.join from rfl, List.append_assoc,
        hsucc, List.drop_append, htail]
      rfl

theorem parseDist_roundtrip (d : Dist) (hwf : d.wf) :
    parseDist d.serialize = .ok d := by
  obtain ⟨hp1, hp2, hst, hmx⟩ := hwf
  have hdec : d.serialize = bytesLE 2 d.dist.tag ++ (f64Bytes d.param1 ++
      (f64Bytes d.param2 ++ (f64Bytes d.start ++ f64Bytes d.max))) := by
    rw [Dist.serialize]
    simp [List.append_assoc]
  have hd2 : d.serialize.drop 2 = f64Bytes d.param1 ++
      (f64Bytes d.param2 ++ (f64Bytes d.start ++ f64Bytes d.max)) := by
    rw [hdec, List.drop_left' (length_bytesLE 2 _)]
  have hd10 : d.serialize.drop 10 = f64Bytes d.param2 ++
      (f64Bytes d.start ++ f64Bytes d.max) := by
    rw [show (10 : Nat) = 2 + 8 from rfl, ← List.drop_drop, hd2,
      List.drop_left' (length_f64Bytes _)]
  have hd18 : d.serialize.drop 18 = f64Bytes d.start ++ f64Bytes d.max := by
    rw [show (18 : Nat) = 10 + 8 from rfl, ← List.drop_drop, hd10,
      List.drop_left' (length_f64Bytes _)]
  have hd26 : d.serialize.drop 26 = f64Bytes d.max := by
    rw [show (26 : Nat) = 18 + 8 from rfl, ← List.drop_drop, hd18,
      List.drop_left' (length_f64Bytes _)]
  have htake : d.serialize.take 2 = bytesLE 2 d.dist.tag := by
    rw [hdec, List.take_left' (length_bytesLE 2 _)]
  have hlev : leNat (d.serialize.take 2) = d.dist.tag := by
    rw [htake, leNat_bytesLE]
    exact Nat.mod_eq_of_lt (by cases d.dist <;> simp [DistType.tag])
  have hdt : distTypeOfTag d.dist.tag = .ok d.dist := by
    cases d.dist <;> rfl
  unfold parseDist
  simp only [hlev, hdt]
  rw [hd2, readF64_f64Bytes_append _ hp1 _, hd10,
    readF64_f64Bytes_append _ hp2 _, hd18, readF64_f64Bytes_append _ hst _]
  rw [show readF64 (d.serialize.drop 26) = d.max by
    rw [hd26, ← List.append_nil (f64Bytes d.max)] at *
    exact readF64_f64Bytes_append _ hmx _]

theorem parseVec_some (len : Nat) (v : List F64) (hlen : v.length = len + 2)
    (hdb : ∀ p ∈ v, p.isDouble) (rest : List Nat) :
    parseVec len (serializeVec len (some v) ++ rest) = v := by
  apply List.ext_getElem
  · simp [parseVec, hlen]
  · intro i hi1 hi2
    have hi : i < len + 2 := by
      simp [parseVec] at hi1
      omega
    have hgoal : (parseVec len (serializeVec len (some v) ++ rest))[i] =
        readF64 ((serializeVec len (some v) ++ rest).drop (8 * i)) := by
      simp [parseVec]
    rw [hgoal]
    have hch : ∀ ch ∈ (List.range (len + 2)).map
        (fun j => f64Bytes (v.getD j (F64.fin 0))), ch.length = 8 := by
      intro ch hch
      simp only [List.mem_map] at hch
      obtain ⟨j, -, rfl⟩ := hch
      exact length_f64Bytes _
    have hilen : i < ((List.range (len + 2)).map
        (fun j => f64Bytes (v.getD j (F64.fin 0)))).length := by
      simp [hi]
    obtain ⟨tail, ht⟩ := join_drop_chunk _ hch i hilen rest
    have hjoin : serializeVec len (some v) =
        ((List.range (len + 2)).map
          (fun j => f64Bytes (v.getD j (F64.fin 0)))).join := rfl
    rw [hjoin, show 8 * i = i * 8 by ring, ht]
    have hgd : ((List.range (len + 2)).map
        (fun j => f64Bytes (v.getD j (F64.fin 0)))).getD i [] =
        f64Bytes (v.getD i (F64.fin 0)) := by
      rw [List.getD_eq_getElem?_getD]
      simp [List.getElem?_map, List.getElem?_range, hi]
    rw [hgd]
    have hvi : v.getD i (F64.fin 0) = v[i] := by
      rw [List.getD_eq_getElem?_getD]
      simp [List.getElem?_eq_getElem hi2]
    rw [hvi]
    exact readF64_f64Bytes_append _ (hdb _ (List.getElem_mem hi2)) _

theorem parseVec_none (len : Nat) (rest : List Nat) :
    parseVec len (serializeVec len none ++ rest) =
      List.replicate (len + 2) (F64.fin 0) := by
  apply List.ext_getElem
  · simp [parseVec]
  · intro i hi1 hi2
    have hi : i < len + 2 := by
      simp [parseVec] at hi1
      omega
    have hgoal : (parseVec len (serializeVec len none ++ rest))[i] =
        readF64 ((serializeVec len none ++ rest).drop (8 * i)) := by
      simp [parseVec]
    rw [hgoal]
    have hch : ∀ ch ∈ (List.range (len + 2)).map
        (fun _ => f64Bytes (F64.fin 0)), ch.length = 8 := by
      intro ch hch
      simp only [List.mem_map] at hch
      obtain ⟨j, -, rfl⟩ := hch
      exact length_f64Bytes _
    have hilen : i < ((List.range (len + 2)).map
        (fun _ => f64Bytes (F64.fin 0))).length := by
      simp [hi]
    obtain ⟨tail, ht⟩ := join_drop_chunk _ hch i hilen rest
    have hjoin : serializeVec len none =
        ((List.range (len + 2)).map (fun _ => f64Bytes (F64.fin 0))).join := rfl
    rw [hjoin, show 8 * i = i * 8 by ring, ht]
    have hgd : ((List.range (len + 2)).map
        (fun _ => f64Bytes (F64.fin 0))).getD i [] = f64Bytes (F64.fin 0) := by
      rw [List.getD_eq_getElem?_getD]
      simp [List.getElem?_map, List.getElem?_range, hi]
    rw [hgd, readF64_f64Bytes_append _ zero_isDouble _]
    simp

theorem boolByte_beq (b : Bool) : (boolByte b == 1) = b := by
  cases b <;> rfl

theorem exists_nonzero_of_specOk (len : Nat) (v : List F64)
    (h : VecSpecOk len v) : ∃ p ∈ v, p ≠ F64.fin 0 := by
  obtain ⟨-, -, hpos, -⟩ := h
  by_contra hc
  push_neg at hc
  have hz : (v.map F64.toQ).sum = 0 := by
    apply List.sum_eq_zero
    intro x hx
    simp only [List.mem_map] at hx
    obtain ⟨p, hp, rfl⟩ := hx
    rw [hc p hp]
    rfl
  rw [hz] at hpos
  exact lt_irrefl 0 hpos

theorem parseNextState_roundtrip (len : Nat) (f : Event → Option (List F64))
    (hv : ∀ e v, f e = some v → v.length = len + 2 ∧ (∀ p ∈ v, p.isDouble) ∧
      ∃ p ∈ v, p ≠ F64.fin 0) :
    parseNextState len ((Event.order.map fun e => serializeVec len (f e)).join)
      = f := by
  funext e
  have hch : ∀ ch ∈ Event.order.map (fun e' => serializeVec len (f e')),
      ch.length = (len + 2) * 8 := by
    intro ch hc
    simp only [List.mem_map] at hc
    obtain ⟨e', -, rfl⟩ := hc
    exact length_serializeVec len _
  have hidx : e.index <
      (Event.order.map (fun e' => serializeVec len (f e'))).length := by
    cases e <;> simp [Event.index, Event.order]
  obtain ⟨tail, ht⟩ := join_drop_chunk _ hch e.index hidx []
  rw [List.append_nil] at ht
  have hgd : (Event.order.map (fun e' => serializeVec len (f e'))).getD
      e.index [] = serializeVec len (f e) := by
    cases e <;> rfl
  rw [hgd] at ht
  have hps : parseNextState len
      ((Event.order.map fun e' => serializeVec len (f e')).join) e =
      (if (parseVec len
          (((Event.order.map fun e' => serializeVec len (f e')).join).drop
            (e.index * ((len + 2) * 8)))).all (fun x => x == F64.fin 0)
        then none
        else some (parseVec len
          (((Event.order.map fun e' => serializeVec len (f e')).join).drop
            (e.index * ((len + 2) * 8))))) := rfl
  rw [hps, ht]
  cases hfe : f e with
  | none =>
    rw [parseVec_none]
    rw [if_pos ?_]
    simp only [List.all_eq_true]
    intro x hx
    rw [List.eq_of_mem_replicate hx]
    simp
  | some v =>
    obtain ⟨hlen, hdb, p, hp, hpne⟩ := hv e v hfe
    rw [parseVec_some len v hlen hdb tail]
    rw [if_neg ?_]
    rw [Bool.not_eq_true, List.all_eq_false]
    exact ⟨p, hp, by simp [hpne]⟩

theorem parseState_roundtrip (len : Nat) (st : State) (hwf : st.wf)
    (hvec : ∀ e v, st.next_state e = some v → VecSpecOk len v) :
    parseState (State.serialize len st) len = .ok st := by
  obtain ⟨hwa, hwl, hwt, hwdb⟩ := hwf
  have hdec : State.serialize len st = st.action.serialize ++
      (st.limit.serialize ++ (st.timeout.serialize ++
        ([boolByte st.action_is_block, boolByte st.limit_includes_nonpadding,
          boolByte st.replace, 0] ++
          (Event.order.map fun e => serializeVec len (st.next_state e)).join))) := by
    rw [State.serialize]
    simp [List.append_assoc]
  have hS : SERIALIZEDDISTSIZE = 34 := rfl
  have hla : st.action.serialize.length = 34 := length_dist_serialize _
  have hll : st.limit.serialize.length = 34 := length_dist_serialize _
  have hlt : st.timeout.serialize.length = 34 := length_dist_serialize _
  have htake1 : (State.serialize len st).take SERIALIZEDDISTSIZE =
      st.action.serialize := by
    rw [hS, hdec, List.take_left' hla]
  have hdrop34 : (State.serialize len st).drop SERIALIZEDDISTSIZE =
      st.limit.serialize ++ (st.timeout.serialize ++
        ([boolByte st.action_is_block, boolByte st.limit_includes_nonpadding,
          boolByte st.replace, 0] ++
          (Event.order.map fun e => serializeVec len (st.next_state e)).join)) := by
    rw [hS, hdec, List.drop_left' hla]
  have htake2 : ((State.serialize len st).drop SERIALIZEDDISTSIZE).take
      SERIALIZEDDISTSIZE = st.limit.serialize := by
    rw [hdrop34, hS, List.take_left' hll]
  have hdrop68 : (State.serialize len st).drop (2 * SERIALIZEDDISTSIZE) =
      st.timeout.serialize ++
        ([boolByte st.action_is_block, boolByte st.limit_includes_nonpadding,
          boolByte st.replace, 0] ++
          (Event.order.map fun e => serializeVec len (st.next_state e)).join) := by
    rw [show 2 * SERIALIZEDDISTSIZE = SERIALIZEDDISTSIZE + 34 from rfl,
      ← List.drop_drop, hdrop34, List.drop_left' hll]
  have htake3 : ((State.serialize len st).drop (2 * SERIALIZEDDISTSIZE)).take
      SERIALIZEDDISTSIZE = st.timeout.serialize := by
    rw [hdrop68, hS, List.take_left' hlt]
  have habc : (st.action.serialize ++ (st.limit.serialize ++
      st.timeout.serialize)).length = 102 := by
    simp [hla, hll, hlt]
  have hdec2 : State.serialize len st = (st.action.serialize ++
      (st.limit.serialize ++ st.timeout.serialize)) ++
        ([boolByte st.action_is_block, boolByte st.limit_includes_nonpadding,
          boolByte st.replace, 0] ++
          (Event.order.map fun e => serializeVec len (st.next_state e)).join) := by
    rw [hdec]
    simp [List.append_assoc]
  have hflag : ∀ k : Nat, (State.serialize len st).getD (102 + k) 0 =
      ([boolByte st.action_is_block, boolByte st.limit_includes_nonpadding,
        boolByte st.replace, 0] ++
        (Event.order.map fun e => serializeVec len (st.next_state e)).join).getD
          k 0 := by
    intro k
    rw [hdec2, List.getD_append_right _ _ _ _ (by rw [habc]; omega)]
    congr 1
    rw [habc]
    omega
  have h3S : 3 * SERIALIZEDDISTSIZE = 102 := rfl
  have hf0 : (State.serialize len st).getD (3 * SERIALIZEDDISTSIZE) 0 =
      boolByte st.action_is_block := by
    rw [h3S, show (102 : Nat) = 102 + 0 from rfl, hflag 0]
    rfl
  have hf1 : (State.serialize len st).getD (3 * SERIALIZEDDISTSIZE + 1) 0 =
      boolByte st.limit_includes_nonpadding := by
    rw [h3S, hflag 1]
    rfl
  have hf2 : (State.serialize len st).getD (3 * SERIALIZEDDISTSIZE + 2) 0 =
      boolByte st.replace := by
    rw [h3S, hflag 2]
    rfl
  have habcf : ((st.action.serialize ++ (st.limit.serialize ++
      st.timeout.serialize)) ++
      [boolByte st.action_is_block, boolByte st.limit_includes_nonpadding,
        boolByte st.replace, 0]).length = 106 := by
    simp [hla, hll, hlt]
  have hdec3 : State.serialize len st = ((st.action.serialize ++
      (st.limit.serialize ++ st.timeout.serialize)) ++
        [boolByte st.action_is_block, boolByte st.limit_includes_nonpadding,
          boolByte st.replace, 0]) ++
        (Event.order.map fun e => serializeVec len (st.next_state e)).join := by
    rw [hdec]
    simp [List.append_assoc]
  have hdropT : (State.serialize len st).drop (3 * SERIALIZEDDISTSIZE + 4) =
      (Event.order.map fun e => serializeVec len (st.next_state e)).join := by
    rw [show 3 * SERIALIZEDDISTSIZE + 4 = 106 from rfl, hdec3,
      List.drop_left' habcf]
  unfold parseState
  simp only [htake1, htake2, htake3, parseDist_roundtrip st.action hwa,
    parseDist_roundtrip st.limit hwl, parseDist_roundtrip st.timeout hwt]
  rw [hf0, hf1, hf2, hdropT, boolByte_beq, boolByte_beq, boolByte_beq]
  rw [parseNextState_roundtrip len st.next_state ?_]
  · intro e v hv
    have hsp := hvec e v hv
    obtain ⟨hl, -, -, -⟩ := hsp
    have hdb : ∀ p ∈ v, p.isDouble := by
      have hle := hwdb e
      rw [hv] at hle
      exact hle
    exact ⟨hl, hdb, exists_nonzero_of_specOk len v (hvec e v hv)⟩

theorem parseStates_roundtrip (perLen len : Nat) (states : List State)
    (hps : ∀ st ∈ states, parseState (State.serialize len st) len = .ok st)
    (hlen : ∀ st ∈ states, (State.serialize len st).length = perLen) :
    parseStates perLen len states.length
      ((states.map (State.serialize len)).join) = .ok states := by
  induction states with
  | nil => rfl
  | cons st r ih =>
    have hjoin : ((st :: r).map (State.serialize len)).join =
        State.serialize len st ++ (r.map (State.serialize len)).join := rfl
    have htake : (State.serialize len st ++
        (r.map (State.serialize len)).join).take perLen =
        State.serialize len st :=
      List.take_left' (hlen st (List.mem_cons_self st r))
    have hdrop : (State.serialize len st ++
        (r.map (State.serialize len)).join).drop perLen =
        (r.map (State.serialize len)).join :=
      List.drop_left' (hlen st (List.mem_cons_self st r))
    have hcount : (st :: r).length = r.length + 1 := rfl
    rw [hcount, hjoin]
    unfold parseStates
    rw [htake, hps st (List.mem_cons_self st r), hdrop,
      ih (fun x hx => hps x (List.mem_cons_of_mem _ hx))
        (fun x hx => hlen x (List.mem_cons_of_mem _ hx))]

theorem length_serializeBytes (m : Machine) :
    (Machine.serializeBytes m).length =
      37 + m.states.length * perStateSize m.states.length := by
  have hjoin : ((m.states.map (State.serialize m.states.length)).join).length =
      m.states.length * perStateSize m.states.length := by
    rw [List.length_join, List.map_map]
    have : (m.states.map (List.length ∘ State.serialize m.states.length)) =
        m.states.map fun _ => perStateSize m.states.length := by
      refine List.map_congr_left fun st _ => ?_
      simp [length_state_serialize]
    rw [this, sum_map_const]
  rw [serializeBytes_decomp, List.length_append,
    length_serializeBytes_header, List.length_append, length_bytesLE, hjoin]
  omega

theorem parseMachineBuf_roundtrip (m : Machine) (hwf : m.WF)
    (hv : m.validate = .ok ()) :
    parseMachineBuf (Machine.serializeBytes m) = .ok m := by
  obtain ⟨hapb, habm, hmpf, hmbf, hwfs⟩ := hwf
  obtain ⟨-, hc1, hc2, hspec⟩ := (validate_ok_iff m).mp hv
  have hser : Machine.serializeBytes m = bytesLE 2 VERSION ++
      (bytesLE 8 m.allowed_padding_bytes ++ (f64Bytes m.max_padding_frac ++
        (bytesLE 8 m.allowed_blocked_microsec ++ (f64Bytes m.max_blocking_frac ++
          ([boolByte m.include_small_packets] ++ (bytesLE 2 m.states.length ++
            (m.states.map (State.serialize m.states.length)).join)))))) := by
    rw [Machine.serializeBytes]
    simp [List.append_assoc]
  have hlen : (Machine.serializeBytes m).length =
      37 + m.states.length * perStateSize m.states.length :=
    length_serializeBytes m
  have htakev : (Machine.serializeBytes m).take 2 = bytesLE 2 VERSION := by
    rw [hser, List.take_left' (length_bytesLE 2 _)]
  have hlev : leNat ((Machine.serializeBytes m).take 2) = 1 := by
    rw [htakev, leNat_bytesLE]
    rfl
  -- the payload after the version tag
  have hpay : (Machine.serializeBytes m).drop 2 =
      bytesLE 8 m.allowed_padding_bytes ++ (f64Bytes m.max_padding_frac ++
        (bytesLE 8 m.allowed_blocked_microsec ++ (f64Bytes m.max_blocking_frac ++
          ([boolByte m.include_small_packets] ++ (bytesLE 2 m.states.length ++
            (m.states.map (State.serialize m.states.length)).join))))) := by
    rw [hser, List.drop_left' (length_bytesLE 2 _)]
  set payload := (Machine.serializeBytes m).drop 2 with hpayset
  have hplen : payload.length =
      35 + m.states.length * perStateSize m.states.length := by
    rw [hpayset, List.length_drop, hlen]
    omega
  -- field offsets inside the payload
  have hd8 : payload.drop 8 = f64Bytes m.max_padding_frac ++
      (bytesLE 8 m.allowed_blocked_microsec ++ (f64Bytes m.max_blocking_frac ++
        ([boolByte m.include_small_packets] ++ (bytesLE 2 m.states.length ++
          (m.states.map (State.serialize m.states.length)).join)))) := by
    rw [hpay, List.drop_left' (length_bytesLE 8 _)]
  have hd16 : payload.drop 16 = bytesLE 8 m.allowed_blocked_microsec ++
      (f64Bytes m.max_blocking_frac ++ ([boolByte m.include_small_packets] ++
        (bytesLE 2 m.states.length ++
          (m.states.map (State.serialize m.states.length)).join))) := by
    rw [show (16 : Nat) = 8 + 8 from rfl, ← List.drop_drop, hd8,
      List.drop_left' (length_f64Bytes _)]
  have hd24 : payload.drop 24 = f64Bytes m.max_blocking_frac ++
      ([boolByte m.include_small_packets] ++ (bytesLE 2 m.states.length ++
        (m.states.map (State.serialize m.states.length)).join)) := by
    rw [show (24 : Nat) = 16 + 8 from rfl, ← List.drop_drop, hd16,
      List.drop_left' (length_bytesLE 8 _)]
  have hd32 : payload.drop 32 = [boolByte m.include_small_packets] ++
      (bytesLE 2 m.states.length ++
        (m.states.map (State.serialize m.states.length)).join) := by
    rw [show (32 : Nat) = 24 + 8 from rfl, ← List.drop_drop, hd24,
      List.drop_left' (length_f64Bytes _)]
  have hd33 : payload.drop 33 = bytesLE 2 m.states.length ++
      (m.states.map (State.serialize m.states.length)).join := by
    rw [show (33 : Nat) = 32 + 1 from rfl, ← List.drop_drop, hd32]
    rfl
  have hd35 : payload.drop 35 =
      (m.states.map (State.serialize m.states.length)).join := by
    rw [show (35 : Nat) = 33 + 2 from rfl, ← List.drop_drop, hd33,
      List.drop_left' (length_bytesLE 2 _)]
  have hjlen : ((m.states.map (State.serialize m.states.length)).join).length =
      m.states.length * perStateSize m.states.length := by
    have := hplen
    rw [← hd35]
    rw [List.length_drop, hplen]
    omega
  have hns : leNat ((payload.drop 33).take 2) = m.states.length := by
    rw [hd33, leNat_bytesLE_append]
    exact Nat.mod_eq_of_lt (by
      have : STATEMAX = 500 := rfl
      omega)
  have happ : leNat (payload.take 8) = m.allowed_padding_bytes := by
    rw [hpay, leNat_bytesLE_append]
    exact Nat.mod_eq_of_lt (by norm_num at hapb ⊢; exact hapb)
  have hrmpf : readF64 (payload.drop 8) = m.max_padding_frac := by
    rw [hd8]
    exact readF64_f64Bytes_append _ hmpf _
  have habm' : leNat ((payload.drop 16).take 8) =
      m.allowed_blocked_microsec := by
    rw [hd16, leNat_bytesLE_append]
    exact Nat.mod_eq_of_lt (by norm_num at habm ⊢; exact habm)
  have hrmbf : readF64 (payload.drop 24) = m.max_blocking_frac := by
    rw [hd24]
    exact readF64_f64Bytes_append _ hmbf _
  have hpay32 : payload = (bytesLE 8 m.allowed_padding_bytes ++
      (f64Bytes m.max_padding_frac ++ (bytesLE 8 m.allowed_blocked_microsec ++
        f64Bytes m.max_blocking_frac))) ++
      ([boolByte m.include_small_packets] ++ (bytesLE 2 m.states.length ++
        (m.states.map (State.serialize m.states.length)).join)) := by
    rw [hpay]
    simp [List.append_assoc]
  have hlen32 : (bytesLE 8 m.allowed_padding_bytes ++
      (f64Bytes m.max_padding_frac ++ (bytesLE 8 m.allowed_blocked_microsec ++
        f64Bytes m.max_blocking_frac))).length = 32 := by
    simp [length_bytesLE, length_f64Bytes]
  have hflag : payload.getD 32 0 = boolByte m.include_small_packets := by
    rw [hpay32, List.getD_append_right _ _ _ _ (by rw [hlen32]), hlen32]
    rfl
  have hstates : parseStates (perStateSize m.states.length) m.states.length
      m.states.length ((m.states.map (State.serialize m.states.length)).join) =
      .ok m.states := by
    refine parseStates_roundtrip _ _ m.states ?_ ?_
    · intro st hst
      refine parseState_roundtrip _ st ?_ ?_
      · exact hwfs st hst
      · intro e v hv'
        exact ((hspec st hst).1) e v hv'
    · intro st hst
      exact length_state_serialize _ st
  -- assemble
  unfold parseMachineBuf
  rw [if_neg (by omega)]
  simp only [hlev]
  show parse_v1_machine payload = .ok m
  unfold parse_v1_machine parse_v1_pre
  rw [if_neg (by omega)]
  rw [if_neg (by
    rw [hns, hd35, hjlen]
    intro hcon
    exact hcon (Nat.mul_comm _ _))]
  rw [hns, hd35, hstates]
  simp only [happ, hrmpf, habm', hrmbf, hflag, boolByte_beq]
  have heta : (⟨m.allowed_padding_bytes, m.max_padding_frac,
      m.allowed_blocked_microsec, m.max_blocking_frac, m.states,
      m.include_small_packets⟩ : Machine) = m := rfl
  simp only [heta, hv]

theorem hexDigitVal_hexDigitChar (x : Nat) (h : x < 16) :
    hexDigitVal (hexDigitChar x) = .ok x := by
  interval_cases x <;> rfl

theorem hexDecode_hexEncode (bs : List Nat) (h : ∀ b ∈ bs, b < 256) :
    hexDecode (hexEncode bs) = .ok bs := by
  induction bs with
  | nil => rfl
  | cons b r ih =>
    have hb : b < 256 := h b (List.mem_cons_self b r)
    have h1 : hexEncode (b :: r) =
        hexDigitChar (b / 16) :: hexDigitChar (b % 16) :: hexEncode r := rfl
    have hd1 := hexDigitVal_hexDigitChar (b / 16) (by omega)
    have hd2 := hexDigitVal_hexDigitChar (b % 16) (by omega)
    rw [h1]
    simp only [hexDecode, hd1, hd2,
      ih (fun x hx => h x (List.mem_cons_of_mem _ hx))]
    congr 2
    omega

theorem mem_f64Bytes_lt (x : F64) (b : Nat) (hb : b ∈ f64Bytes x) : b < 256 :=
  mem_bytesLE_lt 8 _ b hb

theorem mem_dist_serialize_lt (d : Dist) (b : Nat) (hb : b ∈ d.serialize) :
    b < 256 := by
  rw [Dist.serialize] at hb
  simp only [List.mem_append] at hb
  rcases hb with ((((h | h) | h) | h) | h)
  · exact mem_bytesLE_lt 2 _ b h
  all_goals exact mem_f64Bytes_lt _ b h

theorem mem_serializeVec_lt (n : Nat) (ov : Option (List F64)) (b : Nat)
    (hb : b ∈ serializeVec n ov) : b < 256 := by
  cases ov with
  | none =>
    rw [serializeVec, List.mem_join] at hb
    obtain ⟨ch, hch, hbc⟩ := hb
    simp only [List.mem_map] at hch
    obtain ⟨i, -, rfl⟩ := hch
    exact mem_f64Bytes_lt _ b hbc
  | some v =>
    rw [serializeVec, List.mem_join] at hb
    obtain ⟨ch, hch, hbc⟩ := hb
    simp only [List.mem_map] at hch
    obtain ⟨i, -, rfl⟩ := hch
    exact mem_f64Bytes_lt _ b hbc

theorem boolByte_lt (x : Bool) : boolByte x < 256 := by
  cases x <;> decide

theorem mem_state_serialize_lt (n : Nat) (st : State) (b : Nat)
    (hb : b ∈ State.serialize n st) : b < 256 := by
  rw [State.serialize] at hb
  simp only [List.mem_append, List.mem_cons, List.not_mem_nil, or_false]
    at hb
  rcases hb with ((((h | h) | h) | h) | h)
  · exact mem_dist_serialize_lt _ b h
  · exact mem_dist_serialize_lt _ b h
  · exact mem_dist_serialize_lt _ b h
  · rcases h with rfl | rfl | rfl | rfl
    · exact boolByte_lt _
    · exact boolByte_lt _
    · exact boolByte_lt _
    · decide
  · rw [List.mem_join] at h
    obtain ⟨ch, hch, hbc⟩ := h
    simp only [List.mem_map] at hch
    obtain ⟨e, -, rfl⟩ := hch
    exact mem_serializeVec_lt _ _ b hbc

theorem mem_serializeBytes_lt (m : Machine) (b : Nat)
    (hb : b ∈ Machine.serializeBytes m) : b < 256 := by
  rw [Machine.serializeBytes] at hb
  simp only [List.mem_append, List.mem_cons, List.not_mem_nil, or_false]
    at hb
  rcases hb with ((((((h | h) | h) | h) | h) | h) | h) | h
  · exact mem_bytesLE_lt 2 _ b h
  · exact mem_bytesLE_lt 8 _ b h
  · exact mem_f64Bytes_lt _ b h
  · exact mem_bytesLE_lt 8 _ b h
  · exact mem_f64Bytes_lt _ b h
  · rw [h]; exact boolByte_lt _
  · exact mem_bytesLE_lt 2 _ b h
  · rw [List.mem_join] at h
    obtain ⟨ch, hch, hbc⟩ := h
    simp only [List.mem_map] at hch
    obtain ⟨st, -, rfl⟩ := hch
    exact mem_state_serialize_lt _ st b hbc

/-- C1 round trip: for every well-formed machine value that passes
`validate`, decoding its own serialization — with any zlib
implementation that inverts compression and produces bytes — returns a
machine structurally equal to it (bit-exact in every scalar field and
every per-state transition vector; in the model, `F64` equality is
value equality, which collapses only distinctions IEEE `PartialEq`
itself collapses except for identifying all NaN payloads). -/
theorem C1_round_trip (compress : List Nat → List Nat)
    (inflate : List Nat → InflateResult)
    (hrt : ∀ bs, inflate (compress bs) = .ok bs)
    (hcb : ∀ bs, (∀ x ∈ bs, x < 256) → ∀ b ∈ compress bs, b < 256)
    (m : Machine) (hwf : m.WF) (hv : m.validate = .ok ()) :
    Machine.from_str inflate (Machine.serialize compress m) = .ok m := by
  unfold Machine.from_str Machine.serialize
  have hhx := hexDecode_hexEncode (compress m.serializeBytes)
    (hcb _ (fun b hb => mem_serializeBytes_lt m b hb))
  simp only [hhx, hrt]
  exact parseMachineBuf_roundtrip m hwf hv

/-- C1 witness: the concrete valid machine `okM` round-trips through
the full pipeline with the identity compressor. -/
theorem C1_witness :
    Machine.from_str (fun bs => InflateResult.ok bs)
      (Machine.serialize (fun bs => bs) okM) = .ok okM :=
  C1_round_trip (fun bs => bs) (fun bs => InflateResult.ok bs)
    (fun _ => rfl) (fun _ h b hb => h b hb) okM
    (by decide) (by decide)

/-! ## Naming -/

theorem hexDigitChar_mem (x : Nat) (h : x < 16) :
    hexDigitChar x ∈ lowercaseHexDigits := by
  interval_cases x <;> decide

theorem mem_hexEncode (bs : List Nat) (c : Char)
    (hbs : ∀ b ∈ bs, b < 256) (hc : c ∈ hexEncode bs) :
    c ∈ lowercaseHexDigits := by
  rw [hexEncode, List.mem_join] at hc
  obtain ⟨ch, hch, hcc⟩ := hc
  simp only [List.mem_map] at hch
  obtain ⟨b, hb, rfl⟩ := hch
  simp only [List.mem_cons, List.not_mem_nil, or_false] at hcc
  have hblt := hbs b hb
  rcases hcc with rfl | rfl
  · exact hexDigitChar_mem _ (by omega)
  · exact hexDigitChar_mem _ (by omega)

theorem length_hexEncode (bs : List Nat) :
    (hexEncode bs).length = 2 * bs.length := by
  rw [hexEncode, List.length_join, List.map_map]
  have : (bs.map (List.length ∘
      fun b => [hexDigitChar (b / 16), hexDigitChar (b % 16)])) =
      bs.map fun _ => 2 := by
    refine List.map_congr_left fun b _ => rfl
  rw [this, sum_map_const]
  ring

/-- C9: `name` is the first 32 characters of the lowercase-hex SHA-256
digest of the canonical serialized encoding — computed from the
encoding each time, not stored — so (i) it is literally the 32-char
truncation of the digest's hex form, (ii) machines with equal
serializations (in particular structurally equal machines) have equal
names, and (iii) for any digest function producing 32 bytes the name is
exactly 32 lowercase hexadecimal characters. -/
theorem C9_name (compress sha256 : List Nat → List Nat)
    (hsha : ∀ x, (sha256 x).length = 32 ∧ ∀ b ∈ sha256 x, b < 256) :
    (∀ m : Machine, Machine.name compress sha256 m =
      (hexEncode (sha256
        ((Machine.serialize compress m).map Char.toNat))).take 32) ∧
    (∀ m1 m2 : Machine,
      Machine.serialize compress m1 = Machine.serialize compress m2 →
      Machine.name compress sha256 m1 = Machine.name compress sha256 m2) ∧
    (∀ m : Machine, (Machine.name compress sha256 m).length = 32 ∧
      ∀ c ∈ Machine.name compress sha256 m, c ∈ lowercaseHexDigits) := by
  refine ⟨fun m => rfl, ?_, ?_⟩
  · intro m1 m2 h
    rw [Machine.name, Machine.name, h]
  · intro m
    constructor
    · rw [Machine.name, List.length_take, length_hexEncode, (hsha _).1]
      norm_num
    · intro c hc
      rw [Machine.name] at hc
      exact mem_hexEncode _ c (hsha _).2 (List.take_subset _ _ hc)

/-- C9 witness: the theorem applied to a digest oracle returning 32
zero bytes and the machine `okM`. -/
theorem C9_witness :
    (Machine.name (fun bs => bs) (fun _ => List.replicate 32 0) okM).length
      = 32 ∧
    ∀ c ∈ Machine.name (fun bs => bs) (fun _ => List.replicate 32 0) okM,
      c ∈ lowercaseHexDigits := by
  have h := C9_name (fun bs => bs) (fun _ => List.replicate 32 0)
    (fun x => ⟨List.length_replicate 32 0, fun b hb => by
      rw [List.eq_of_mem_replicate hb]; norm_num⟩)
  exact (h.2.2 okM)
